import Mathlib

/-!
# debserve: stanza extraction and directory scanning

A shallow embedding of `main.go` (`ExtractStanza`, `ScanPackages`,
`ScanAndWritePackages`) and the properties its specification states about them.

The program is written against libraries (`ar`, `gzip`/`xz`/`lzma`/`bzip2`,
`archive/tar`, `crypto/*`, `path/filepath`).  What the program observes of an
archive through the `ar`, codec and `tar` readers is part of the input: an
`Archive` carries the bytes of the file together with the headers, data and
errors those readers deliver for it, and the number of file bytes each reader
call pulls through the tee.  The digest functions are a parameter (`Hashes`).
The path functions and `filepath.WalkDir` are modelled after the Go standard
library.  Every error return of `ExtractStanza` is present: the sink may fail
after a number of bytes (`Sink.fault`) and the final read to the end of the
file may fail (`Archive.drainErr`).
-/

namespace Debserve

/-! ## Bytes, errors, sink -/

/-- One byte of a file or of the output. -/
abbrev Byte := UInt8

/-- An error value created outside `main.go`, by the operating system or by a
library (`os`, `ar`, the decompressors, `archive/tar`). -/
structure ExtError where
  msg : String
  deriving DecidableEq, Repr

/-- Go `error` values returned by the program.  `ext` is an error of the
operating system or of a library, propagated as it is; `errorf` is an error
built by `fmt.Errorf` in `main.go`, with its message. -/
inductive Error where
  | ext (e : ExtError)
  | errorf (msg : String)
  deriving DecidableEq, Repr

/-- The bytes of a Go string (`[]byte(s)`). -/
def bytesOf (s : String) : List Byte := s.toList.flatMap String.utf8EncodeChar

/-- The output sink `w io.Writer`.  `written` is everything it has accepted so
far.  `fault = none` is a sink that accepts every write, such as the in-memory
buffer of `main_test.go`; `fault = some (n, e)` is a sink that accepts `n` more
bytes and then fails with `e`, as a file or an encoder can. -/
structure Sink where
  written : List Byte
  fault : Option (Nat × ExtError)
  deriving DecidableEq, Repr

/-- `w.Write(p)`: the sink takes all of `p` and returns a nil error, or takes
the part of `p` it still has room for and returns its error. -/
def Sink.write (w : Sink) (p : List Byte) : Sink × Option Error :=
  match w.fault with
  | none => (⟨w.written ++ p, none⟩, none)
  | some (n, e) =>
    if p.length ≤ n then (⟨w.written ++ p, some (n - p.length, e)⟩, none)
    else (⟨w.written ++ p.take n, some (0, e)⟩, some (.ext e))

/-! ## Digests and hex encoding -/

/-- The three digest functions (`crypto/md5`, `crypto/sha1`, `crypto/sha256`):
`md5 bs` is what `h.Sum(nil)` returns once `bs` has been written to `h`.  The
size fields are the libraries' `Size` constants. -/
structure Hashes where
  md5 : List Byte → List Byte
  sha1 : List Byte → List Byte
  sha256 : List Byte → List Byte
  md5_size : ∀ bs, (md5 bs).length = 16
  sha1_size : ∀ bs, (sha1 bs).length = 20
  sha256_size : ∀ bs, (sha256 bs).length = 32

/-- The digit table of `encoding/hex`. -/
def hextable : List Char := "0123456789abcdef".toList

/-- `hex.EncodeToString`, as a list of characters: two digits per byte, high
nibble first. -/
def hexChars (bs : List Byte) : List Char :=
  bs.flatMap fun b => [hextable.getD (b.toNat / 16) '0', hextable.getD (b.toNat % 16) '0']

/-- `hex.EncodeToString`. -/
def hexEncodeToString (bs : List Byte) : String := String.mk (hexChars bs)

/-! ## The archive file and the tee reader -/

/-- The reader `tee := io.TeeReader(f, io.MultiWriter(h1, h2, h3))`: `rest` is
the part of the file not read yet, `fed` the bytes already written to the three
running digests. -/
structure Tee where
  rest : List Byte
  fed : List Byte
  deriving DecidableEq, Repr

/-- The tee over a freshly opened file. -/
def Tee.start (content : List Byte) : Tee := ⟨content, []⟩

/-- Reading `n` bytes through the tee (fewer at end of file): every byte read
is written to the digests. -/
def Tee.read (t : Tee) (n : Nat) : Tee := ⟨t.rest.drop n, t.fed ++ t.rest.take n⟩

/-- The tee after a successful `io.Copy(io.Discard, tee)`: the file has been
read to its end. -/
def Tee.drain (t : Tee) : Tee := ⟨[], t.fed ++ t.rest⟩

/-- The decompressors of the `switch` in `ExtractStanza`. -/
inductive Codec where
  | gzip | xz | lzma | bzip2
  deriving DecidableEq, Repr

/-- One entry of the inner tar stream as `tr.Next()` and `io.Copy(w, tr)` see
it.  `cost` is the number of file bytes pulled through the tee by the `Next`
call that returns the header, `readCost` by reading the entry; `data` are the
bytes the entry delivers and `readErr` the error that ends the read (`none` for
`io.EOF`, the regular end of the entry). -/
structure TarEntry where
  name : String
  cost : Nat
  data : List Byte
  readErr : Option ExtError
  readCost : Nat

/-- The inner tar stream: the entries returned by successive `tr.Next()` calls
and how the sequence stops (`none` for `io.EOF`, `some e` for an error). -/
structure TarStream where
  entries : List TarEntry
  stop : Option ExtError
  stopCost : Nat

/-- What constructing a decompressor over a member gives (`gzip.NewReader(a)`
and its siblings, followed by `tar.NewReader`): the file bytes read, and an
error or the tar stream. -/
structure Decoded where
  cost : Nat
  result : Except ExtError TarStream

/-- One member of the outer ar archive as `a.Next()` returns it: the header
name, the file bytes pulled through the tee to reach the header, and what each
decompressor makes of the member's data. -/
structure ArMember where
  name : String
  cost : Nat
  decode : Codec → Decoded

/-- An opened archive file: its bytes, the bytes `ar.NewReader` reads at once
(the global header), the members returned by successive `a.Next()` calls and
how the sequence stops (`none` for `io.EOF`, `some e` for an error), and the
error, if any, of reading what is left of the file once the containers have
been processed (`drainErr = none`: the file reads to its end). -/
structure Archive where
  content : List Byte
  preamble : Nat
  members : List ArMember
  stop : Option ExtError
  stopCost : Nat
  drainErr : Option ExtError

/-! ## ExtractStanza -/

/-- `strings.HasPrefix(s, p)`. -/
def HasPrefix (s p : String) : Bool := p.toList.isPrefixOf s.toList

/-- The first loop of `ExtractStanza`: call `a.Next()` until a header whose
name starts with `control.tar`.  Returns the tee, and either the error of
`Next`, or the member the reader stands on (whose name is `controlName`), or
`none` when `io.EOF` ended the loop and `controlName` is still empty. -/
def findControl (t : Tee) (stop : Option ExtError) (stopCost : Nat) :
    List ArMember → Tee × Except Error (Option ArMember)
  | [] =>
    match stop with
    | none => (t.read stopCost, .ok none)
    | some e => (t.read stopCost, .error (.ext e))
  | m :: ms =>
    if HasPrefix m.name "control.tar" then (t.read m.cost, .ok (some m))
    else findControl (t.read m.cost) stop stopCost ms

/-- The `switch controlName` of `ExtractStanza`: the decompressor for each of
the four names, `none` for the `default` branch. -/
def selectCodec (controlName : String) : Option Codec :=
  if controlName = "control.tar.gz" then some .gzip
  else if controlName = "control.tar.xz" then some .xz
  else if controlName = "control.tar.lzma" then some .lzma
  else if controlName = "control.tar.bz2" then some .bzip2
  else none

/-- `io.Copy(w, tr)` on an entry: the data goes to the sink, then the error of
the write if any, else the error that ended the read. -/
def ioCopy (w : Sink) (data : List Byte) (readErr : Option ExtError) : Sink × Option Error :=
  match w.write data with
  | (w1, some e) => (w1, some e)
  | (w1, none) => (w1, readErr.map .ext)

/-- The second loop of `ExtractStanza`: call `tr.Next()` until the entry named
`./control`, copy that entry to the sink and stop; `io.EOF` ends the loop
without error, any other error is returned. -/
def copyControl (stop : Option ExtError) (stopCost : Nat) :
    Tee → Sink → List TarEntry → Tee × Sink × Option Error
  | t, w, [] => (t.read stopCost, w, stop.map .ext)
  | t, w, e :: es =>
    if e.name = "./control" then
      match ioCopy w e.data e.readErr with
      | (w1, err) => ((t.read e.cost).read e.readCost, w1, err)
    else copyControl stop stopCost (t.read e.cost) w es

/-- The two lines written after the Record:
`"Filename: " + filename + "\nSize: " + fmt.Sprint(fi.Size()) + "\n"`. -/
def nameSizeLines (filename : String) (size : Nat) : String :=
  "Filename: " ++ filename ++ "\nSize: " ++ toString size ++ "\n"

/-- The checksum lines, ending in the blank line. -/
def checksumLines (H : Hashes) (fed : List Byte) : String :=
  "MD5sum: " ++ hexEncodeToString (H.md5 fed) ++ "\n" ++
    "SHA1: " ++ hexEncodeToString (H.sha1 fed) ++ "\n" ++
    "SHA256: " ++ hexEncodeToString (H.sha256 fed) ++ "\n\n"

/-- `ExtractStanza(debfile, filepath, w)`.  `file` is what `os.Open(debfile)`
and `f.Stat()` give: the error of either, or the opened archive, whose
`fi.Size()` is the length of its content.  Returns the sink and the error
(`none` for nil). -/
def ExtractStanza (H : Hashes) (file : Except ExtError Archive) (debfile filepath : String)
    (w : Sink) : Sink × Option Error :=
  match file with
  | .error e => (w, some (.ext e))
  | .ok f =>
    -- a := ar.NewReader(tee)
    match findControl ((Tee.start f.content).read f.preamble) f.stop f.stopCost f.members with
    | (_, .error e) => (w, some e)
    | (_, .ok none) => (w, some (.errorf ("control file not found in " ++ debfile)))
    | (tee, .ok (some m)) =>
      -- controlName = m.name, not empty since it starts with "control.tar"
      match selectCodec m.name with
      | none => (w, some (.errorf ("unsupported control archive format: " ++ m.name)))
      | some c =>
        match (m.decode c).result with
        | .error e => (w, some (.ext e))
        | .ok tr =>
          match copyControl tr.stop tr.stopCost (tee.read (m.decode c).cost) w tr.entries with
          | (_, w1, some e) => (w1, some e)
          | (tee1, w1, none) =>
            -- io.Copy(io.Discard, tee)
            match f.drainErr with
            | some e => (w1, some (.ext e))
            | none =>
              let tee2 := tee1.drain
              let filename := if filepath = "" then debfile else filepath
              match w1.write (bytesOf (nameSizeLines filename f.content.length)) with
              | (w2, some e) => (w2, some e)
              | (w2, none) => w2.write (bytesOf (checksumLines H tee2.fed))

/-! ## Paths (`path/filepath`, `strings`) -/

/-- `strings.Split(s, "/")` on the characters of a path: the elements between
separators; one (empty) element for the empty path. -/
def splitSep : List Char → List (List Char)
  | [] => [[]]
  | c :: cs =>
    if c = '/' then [] :: splitSep cs
    else
      match splitSep cs with
      | [] => [[c]]
      | x :: xs => (c :: x) :: xs

/-- `strings.Join(elems, "/")`. -/
def joinSep : List (List Char) → List Char
  | [] => []
  | [x] => x
  | x :: y :: rest => x ++ '/' :: joinSep (y :: rest)

/-- One step of the element loop of `filepath.Clean`, on the stack of elements
kept so far (last kept element first): empty and `.` elements are dropped, `..`
removes the last kept element when there is one that is not itself `..`, is kept
in a relative path that cannot go further up, and is dropped at the root; any
other element is kept. -/
def cleanStep (rooted : Bool) (kept : List (List Char)) (e : List Char) : List (List Char) :=
  if e = [] ∨ e = ['.'] then kept
  else if e = ['.', '.'] then
    match kept with
    | [] => if rooted then [] else [e]
    | top :: below => if top = ['.', '.'] then e :: kept else below
  else e :: kept

/-- The elements `filepath.Clean` keeps, in order. -/
def cleanElems (rooted : Bool) (elems : List (List Char)) : List (List Char) :=
  (elems.foldl (cleanStep rooted) []).reverse

/-- A path in normal form: whether it starts at the root, and its elements. -/
abbrev Norm := Bool × List (List Char)

/-- The normal form of a path. -/
def norm (p : List Char) : Norm :=
  (p.head? = some '/', cleanElems (p.head? = some '/') (splitSep p))

/-- The string of a normal form: `/` before the elements of a rooted path, `.`
for the relative path without elements. -/
def render (n : Norm) : List Char :=
  if n.1 then '/' :: joinSep n.2
  else if n.2 = [] then ['.'] else joinSep n.2

/-- `filepath.Clean`, on characters. -/
def cleanChars (p : List Char) : List Char := render (norm p)

/-- `filepath.Clean(path)`: the shortest equivalent path (Unix separator). -/
def Clean (path : String) : String := String.mk (cleanChars path.toList)

/-- `filepath.Join(a, b)`: the non-empty arguments joined by `/` and cleaned;
the empty string when both are empty. -/
def Join (a b : String) : String :=
  if a = "" then (if b = "" then "" else Clean b)
  else Clean (a ++ "/" ++ b)

/-- `strings.Count(s, "/")`, as a Go `int`. -/
def CountSep (s : String) : Int := (s.toList.count '/' : Nat)

/-- The backward scan of `filepath.Ext` over the reversed path: stop without
result at a separator, return the suffix from the first dot met. -/
def extScan : List Char → List Char → List Char
  | [], _ => []
  | c :: cs, acc =>
    if c = '/' then [] else if c = '.' then '.' :: acc else extScan cs (c :: acc)

/-- `filepath.Ext(path)`: the suffix beginning at the last dot of the last
element, empty if there is none. -/
def Ext (path : String) : String := String.mk (extScan path.toList.reverse [])

/-- The element comparison of `filepath.Rel`: drop the common leading elements;
the elements of the base that remain are climbed with `..`, which is not
possible over a remaining `..`. -/
def relElems : List (List Char) → List (List Char) → Option (List (List Char))
  | [], ts => some ts
  | _ :: bs, [] => some (List.replicate (bs.length + 1) ['.', '.'])
  | b :: bs, t :: ts =>
    if b = t then relElems bs ts
    else if b = ['.', '.'] then none
    else some (List.replicate (bs.length + 1) ['.', '.'] ++ t :: ts)

/-- `filepath.Rel(basepath, targpath)`: both paths are cleaned; `.` when they
are equal, an error when one is rooted and the other not or when the base
cannot be climbed, else the relative path.  A cleaned base `.` has no
elements; a cleaned target `.` is compared as the element `.`. -/
def Rel (basepath targpath : String) : Except ExtError String :=
  let b := norm basepath.toList
  let t := norm targpath.toList
  if render t = render b then .ok "."
  else if b.1 ≠ t.1 then
    .error ⟨"Rel: can't make " ++ targpath ++ " relative to " ++ basepath⟩
  else
    match relElems b.2 (if t.1 = false ∧ t.2 = [] then [['.']] else t.2) with
    | none => .error ⟨"Rel: can't make " ++ targpath ++ " relative to " ++ basepath⟩
    | some es => .ok (String.mk (joinSep es))

/-! ## The directory tree and `filepath.WalkDir` -/

mutual
/-- What lies at a path of the file system.  A non-directory entry carries what
`os.Open` and `f.Stat` give for it; a directory carries the error of
`os.ReadDir`, if any, and the entries `os.ReadDir` returns, in the order it
returns them (sorted by file name). -/
inductive Node where
  | file (f : Except ExtError Archive)
  | dir (readErr : Option ExtError) (entries : Entries)
/-- The entries of a directory, each with its file name. -/
inductive Entries where
  | nil
  | cons (name : String) (node : Node) (rest : Entries)
end

/-- `d.IsDir()`. -/
def Node.IsDir : Node → Bool
  | .file _ => false
  | .dir _ _ => true

/-- The value a `fs.WalkDirFunc` returns: `nil`, the sentinel `fs.SkipDir`, or
another error. -/
inductive WalkResult where
  | nil
  | skipDir
  | err (e : Error)
  deriving DecidableEq, Repr

mutual
/-- The function `walkDir` of `path/filepath`, threading the state `σ` that the
callback closes over.  The callback receives the path, the entry `d` (here the
node itself, `none` for Go's nil) and the error. -/
def walkDir {σ : Type} (fn : σ → String → Option Node → Option ExtError → σ × WalkResult)
    (path : String) : Node → σ → σ × WalkResult
  | .file f, s =>
    -- `err != nil || !d.IsDir()`: the result of the callback is returned
    fn s path (some (.file f)) none
  | .dir readErr entries, s =>
    match fn s path (some (.dir readErr entries)) none with
    | (s1, .skipDir) => (s1, .nil)
    | (s1, .err e) => (s1, .err e)
    | (s1, .nil) =>
      match readErr with
      | some e =>
        -- second call, to report the ReadDir error
        match fn s1 path (some (.dir readErr entries)) (some e) with
        | (s2, .skipDir) => (s2, .nil)
        | (s2, .err e2) => (s2, .err e2)
        | (s2, .nil) => walkEntries fn path entries s2
      | none => walkEntries fn path entries s1
/-- The loop of `walkDir` over the entries of a directory: `fs.SkipDir` from an
entry ends the loop, another error is returned. -/
def walkEntries {σ : Type} (fn : σ → String → Option Node → Option ExtError → σ × WalkResult)
    (path : String) : Entries → σ → σ × WalkResult
  | .nil, s => (s, .nil)
  | .cons name node rest, s =>
    match walkDir fn (Join path name) node s with
    | (s1, .skipDir) => (s1, .nil)
    | (s1, .err e) => (s1, .err e)
    | (s1, .nil) => walkEntries fn path rest s1
end

/-- `filepath.WalkDir(root, fn)`.  `rootNode` is what `os.Lstat(root)` finds:
its error, reported to the callback with a nil entry, or the node at `root`.
`fs.SkipDir` from the walk of the root gives a nil error. -/
def WalkDir {σ : Type} (fn : σ → String → Option Node → Option ExtError → σ × WalkResult)
    (root : String) (rootNode : Except ExtError Node) (s : σ) : σ × Option Error :=
  match (match rootNode with
    | .error e => fn s root none (some e)
    | .ok node => walkDir fn root node s) with
  | (s1, .err e) => (s1, some e)
  | (s1, _) => (s1, none)

/-! ## ScanPackages -/

/-- The callback of `ScanPackages`, with the sink and `count` as state.
Opening `path` gives the file of the entry `d`. -/
def scanFn (H : Hashes) (folder : String) (maxdepth : Int) (st : Sink × Nat) (path : String)
    (d : Option Node) (err : Option ExtError) : (Sink × Nat) × WalkResult :=
  match err with
  | some e => (st, .err (.ext e))
  | none =>
    match d with
    | none => (st, .nil) -- not reached: `d` is nil only together with an error
    | some (.dir _ _) =>
      if CountSep path > maxdepth then (st, .skipDir) else (st, .nil)
    | some (.file f) =>
      if Ext path = ".deb" then
        match Rel folder path with
        | .error e => (st, .err (.ext e))
        | .ok relpath =>
          match ExtractStanza H f path ("./" ++ relpath) st.1 with
          | (w, some e) => ((w, st.2), .err e)
          | (w, none) => ((w, st.2 + 1), .nil)
      else (st, .nil)

/-- `ScanPackages(folder, maxdepth, w)`, on the file system object `root` found
at `folder`.  Returns the sink, the count and the error. -/
def ScanPackages (H : Hashes) (folder : String) (root : Except ExtError Node) (maxdepth : Int)
    (w : Sink) : Sink × Nat × Option Error :=
  match WalkDir (scanFn H folder maxdepth) folder root (w, 0) with
  | ((w1, count), err) => (w1, count, err)

/-! ## ScanAndWritePackages -/

/-- The resources of `ScanAndWritePackages`: the three destination files `f`
(`Packages`), `gzf` (`Packages.gz`), `bzf` (`Packages.bz2`) and the two
encoders `gzw`, `bzw` over the latter two. -/
inductive Handle where
  | f | gzf | bzf | gzw | bzw
  deriving DecidableEq, Repr

/-- An observable step on a resource: it was opened (a file created, an encoder
constructed) or closed. -/
inductive Action where
  | opened (h : Handle)
  | closed (h : Handle)
  deriving DecidableEq, Repr

/-- What the environment answers to the three `os.Create` calls and to
`bzip2.NewWriter` (`none` for success, else the error), and the fault of the
fan-out writer `io.MultiWriter(f, gzw, bzw)` over the destinations (`none`
when they accept every write). -/
structure Outputs where
  createF : Option ExtError
  createGzf : Option ExtError
  createBzf : Option ExtError
  newBzw : Option ExtError
  writeFault : Option (Nat × ExtError)

/-- The outcome of `ScanAndWritePackages`: the opens and closes in the order
they happen, the bytes written to the fan-out writer, and the returned count
and error. -/
structure WriteOutcome where
  log : List Action
  index : List Byte
  count : Nat
  err : Option Error

/-- The deferred calls run when the function returns, last deferred first;
`deferred` lists the handles with the last deferred at the head. -/
def runDeferred (deferred : List Handle) : List Action := deferred.map .closed

/-- `ScanAndWritePackages(folder, maxdepth)`.  Each `defer` takes effect only
once its statement has been reached. -/
def ScanAndWritePackages (H : Hashes) (out : Outputs) (folder : String)
    (root : Except ExtError Node) (maxdepth : Int) : WriteOutcome :=
  match out.createF with
  | some e => ⟨[], [], 0, some (.ext e)⟩
  | none =>
    match out.createGzf with
    | some e => ⟨[.opened .f], [], 0, some (.ext e)⟩
    | none =>
      match out.createBzf with
      | some e => ⟨[.opened .f, .opened .gzf], [], 0, some (.ext e)⟩
      | none =>
        -- defer f.Close(); defer gzf.Close(); defer bzf.Close()
        -- gzw := gzip.NewWriter(gzf)
        match out.newBzw with
        | some e =>
          ⟨[.opened .f, .opened .gzf, .opened .bzf, .opened .gzw] ++
            runDeferred [.bzf, .gzf, .f], [], 0, some (.ext e)⟩
        | none =>
          -- defer gzw.Close(); defer bzw.Close()
          -- w := io.MultiWriter(f, gzw, bzw)
          match ScanPackages H folder root maxdepth ⟨[], out.writeFault⟩ with
          | (w, count, err) =>
            ⟨[.opened .f, .opened .gzf, .opened .bzf, .opened .gzw, .opened .bzw] ++
              runDeferred [.bzw, .gzw, .bzf, .gzf, .f], w.written, count, err⟩

/-- Every resource opened in the log is closed in it. -/
def allClosed (log : List Action) : Prop :=
  ∀ h : Handle, Action.opened h ∈ log → Action.closed h ∈ log

/-! ## Well-named trees and the visits of a scan -/

/-- A file name as `os.ReadDir` returns it: not empty, without separator, and
neither `.` nor `..`. -/
def validName (s : String) : Bool :=
  decide (s ≠ "") && decide ('/' ∉ s.toList) && decide (s ≠ ".") && decide (s ≠ "..")

mutual
/-- Every entry below the node has a valid file name. -/
def Node.wellNamed : Node → Bool
  | .file _ => true
  | .dir _ entries => entries.wellNamed
/-- Every entry of the list, and below, has a valid file name. -/
def Entries.wellNamed : Entries → Bool
  | .nil => true
  | .cons name node rest => validName name && node.wellNamed && rest.wellNamed
end

/-- The names from the root to an entry, joined by `/`: the path of the entry
relative to the root. -/
def relName (rel : List String) : String := String.mk (joinSep (rel.map String.toList))

/-- Elements kept by `filepath.Clean` are not empty, not `.`, and hold no
separator. -/
def GoodElem (e : List Char) : Prop := e ≠ [] ∧ e ≠ ['.'] ∧ '/' ∉ e

/-- The stack of kept elements of a cleaned path (last element first): `..`
occurs only in a relative path and only below other `..` elements. -/
def Good (rooted : Bool) : List (List Char) → Prop
  | [] => True
  | e :: below =>
    GoodElem e ∧ (e = ['.', '.'] → rooted = false ∧ ∀ x ∈ below, x = ['.', '.']) ∧
      Good rooted below

/-- What a scan meets, in the order it meets it: a non-directory entry with
extension `.deb`, with its path, the names leading to it from the root and its
file; or an error of the traversal itself (a directory that cannot be listed). -/
inductive Visit where
  | deb (path : String) (rel : List String) (file : Except ExtError Archive)
  | fail (e : ExtError)

mutual
/-- The visits below a node, in traversal order: a directory whose path holds
more separators than `maxdepth` is not entered; the entries of a directory are
visited in the order of its listing, each subtree before the next entry. -/
def Node.visits (maxdepth : Int) (path : String) (rel : List String) : Node → List Visit
  | .file f => if Ext path = ".deb" then [.deb path rel f] else []
  | .dir readErr entries =>
    if CountSep path > maxdepth then []
    else
      match readErr with
      | some e => [.fail e]
      | none => entries.visits maxdepth path rel
/-- The visits of the entries of a directory. -/
def Entries.visits (maxdepth : Int) (path : String) (rel : List String) : Entries → List Visit
  | .nil => []
  | .cons name node rest =>
    node.visits maxdepth (Join path name) (rel ++ [name]) ++ rest.visits maxdepth path rel
end

/-- Extraction of the visited archives one after the other into the sink,
counting the successes, up to the first error. -/
def runVisits (H : Hashes) : Sink → Nat → List Visit → Sink × Nat × Option Error
  | w, n, [] => (w, n, none)
  | w, n, .fail e :: _ => (w, n, some (.ext e))
  | w, n, .deb path rel file :: rest =>
    match ExtractStanza H file path ("./" ++ relName rel) w with
    | (w1, some e) => (w1, n, some e)
    | (w1, none) => runVisits H w1 (n + 1) rest

/-- The result of a walk that carried out `runVisits`. -/
def walkOf (r : Sink × Nat × Option Error) : (Sink × Nat) × WalkResult :=
  ((r.1, r.2.1), match r.2.2 with
    | none => .nil
    | some e => .err e)

/-! ## Sample inputs -/

/-- A toy instance of the digest functions (constant digests of the right
sizes), for evaluating the definitions. -/
def toyHashes : Hashes where
  md5 := fun _ => List.replicate 16 0xab
  sha1 := fun _ => List.replicate 20 0x01
  sha256 := fun _ => List.replicate 32 0xf0
  md5_size := fun _ => by simp
  sha1_size := fun _ => by simp
  sha256_size := fun _ => by simp

/-- A tar stream holding `./md5sums` and then `./control` with data `"P\n"`. -/
def sampleTar : TarStream where
  entries := [⟨"./md5sums", 3, [1, 2], none, 2⟩, ⟨"./control", 2, bytesOf "P\n", none, 1⟩]
  stop := none
  stopCost := 1

/-- An archive of 12 bytes with members `debian-binary`, `control.tar.gz`,
`data.tar.xz`. -/
def sampleDeb : Archive where
  content := [33, 60, 97, 114, 99, 104, 62, 10, 1, 2, 3, 4]
  preamble := 8
  members := [⟨"debian-binary", 1, fun _ => ⟨0, .error ⟨"no"⟩⟩⟩,
    ⟨"control.tar.gz", 1, fun _ => ⟨1, .ok sampleTar⟩⟩,
    ⟨"data.tar.xz", 1, fun _ => ⟨0, .error ⟨"no"⟩⟩⟩]
  stop := none
  stopCost := 0
  drainErr := none

/-- An archive without any member named `control.tar*`: `debian-binary` and
`data.tar.xz` only. -/
def noControlDeb : Archive where
  content := [33, 60, 97, 114, 99, 104, 62, 10, 7, 7]
  preamble := 8
  members := [⟨"debian-binary", 1, fun _ => ⟨0, .error ⟨"no"⟩⟩⟩,
    ⟨"data.tar.xz", 1, fun _ => ⟨0, .error ⟨"no"⟩⟩⟩]
  stop := none
  stopCost := 0
  drainErr := none

/-- An archive whose first `control.tar*` member is `control.tar.zstd`, followed
by a member `control.tar.gz` that would decode. -/
def zstdDeb : Archive where
  content := [33, 60, 97, 114, 99, 104, 62, 10, 9, 9, 9]
  preamble := 8
  members := [⟨"debian-binary", 1, fun _ => ⟨0, .error ⟨"no"⟩⟩⟩,
    ⟨"control.tar.zstd", 1, fun _ => ⟨1, .ok sampleTar⟩⟩,
    ⟨"control.tar.gz", 1, fun _ => ⟨1, .ok sampleTar⟩⟩]
  stop := none
  stopCost := 0
  drainErr := none

/-- A tar stream whose only entry is named `control` (not `./control`). -/
def plainNameTar : TarStream where
  entries := [⟨"control", 2, bytesOf "P\n", none, 1⟩]
  stop := none
  stopCost := 1

/-- An archive whose `control.tar.xz` holds only an entry named `control`. -/
def noRecordDeb : Archive where
  content := [33, 60, 97, 114, 99, 104, 62, 10, 5]
  preamble := 8
  members := [⟨"debian-binary", 1, fun _ => ⟨0, .error ⟨"no"⟩⟩⟩,
    ⟨"control.tar.xz", 1, fun _ => ⟨1, .ok plainNameTar⟩⟩]
  stop := none
  stopCost := 0
  drainErr := none

/-- A tar stream whose `./control` entry delivers two bytes and then fails
(a truncated stream). -/
def tornTar : TarStream where
  entries := [⟨"./control", 2, bytesOf "P\n", some ⟨"unexpected EOF"⟩, 1⟩]
  stop := none
  stopCost := 0

/-- An archive whose `control.tar.gz` is truncated inside `./control`. -/
def tornDeb : Archive where
  content := [33, 60, 97, 114, 99, 104, 62, 10, 5, 6]
  preamble := 8
  members := [⟨"debian-binary", 1, fun _ => ⟨0, .error ⟨"no"⟩⟩⟩,
    ⟨"control.tar.gz", 1, fun _ => ⟨1, .ok tornTar⟩⟩]
  stop := none
  stopCost := 0
  drainErr := none

/-- An archive like `sampleDeb` whose last bytes cannot be read: the final
read to the end of the file fails. -/
def unreadableTailDeb : Archive where
  content := [33, 60, 97, 114, 99, 104, 62, 10, 1, 2, 3, 4]
  preamble := 8
  members := [⟨"debian-binary", 1, fun _ => ⟨0, .error ⟨"no"⟩⟩⟩,
    ⟨"control.tar.gz", 1, fun _ => ⟨1, .ok sampleTar⟩⟩,
    ⟨"data.tar.xz", 1, fun _ => ⟨0, .error ⟨"no"⟩⟩⟩]
  stop := none
  stopCost := 0
  drainErr := some ⟨"input/output error"⟩

/-- The tree of the tests: a directory `examples` with two archives, beside
other files. -/
def testTree : Node :=
  .dir none
    (.cons "examples"
      (.dir none
        (.cons "test-pkg1_1.0.0_all.deb" (.file (.ok sampleDeb))
          (.cons "test-pkg2_1.0.0_amd64.deb" (.file (.ok noRecordDeb)) .nil)))
      (.cons "main.go" (.file (.error ⟨"not opened"⟩)) .nil))

/-- A tree with one archive, and after it a directory that cannot be listed. -/
def lockedTree : Node :=
  .dir none
    (.cons "a.deb" (.file (.ok sampleDeb))
      (.cons "private" (.dir (some ⟨"permission denied"⟩) .nil) .nil))

/-- A tree whose only archive lies in the subdirectory `sub`. -/
def nestedTree : Node :=
  .dir none (.cons "sub" (.dir none (.cons "b.deb" (.file (.ok sampleDeb)) .nil)) .nil)

/-- A tree with one archive directly in the root. -/
def flatTree : Node :=
  .dir none (.cons "a.deb" (.file (.ok sampleDeb)) .nil)

/-- A tree with a good archive, then a truncated one, then another good one. -/
def tornTree : Node :=
  .dir none
    (.cons "a.deb" (.file (.ok sampleDeb))
      (.cons "b.deb" (.file (.ok tornDeb))
        (.cons "c.deb" (.file (.ok sampleDeb)) .nil)))

/-- The listing of a directory with a good archive, then one in an unsupported
format, then another good one. -/
def zstdEntries : Entries :=
  .cons "a.deb" (.file (.ok sampleDeb))
    (.cons "z.deb" (.file (.ok zstdDeb)) (.cons "zz.deb" (.file (.ok sampleDeb)) .nil))

/-- A tree with a good archive, one in an unsupported format, and a good one
after it. -/
def zstdTree : Node := .dir none zstdEntries

/-! ## What the specification calls Record, Stanza -/

/-- The invariant of the tee over a file with bytes `content`: the bytes fed to
the digests are the part of the file read so far, `rest` is what is left. -/
def Tee.Inv (content : List Byte) (t : Tee) : Prop := t.fed ++ t.rest = content

/-- The Metadata Container of an archive: the first member whose name starts
with `control.tar`. -/
def Archive.container (a : Archive) : Option ArMember :=
  a.members.find? fun m => HasPrefix m.name "control.tar"

/-- The first inner entry named exactly `./control`. -/
def TarStream.controlEntry (tr : TarStream) : Option TarEntry :=
  tr.entries.find? fun e => e.name = "./control"

/-- The inner tar stream of the Metadata Container, when the container exists,
its name is one of the four supported ones and its decompressor opens. -/
def Archive.inner (a : Archive) : Option TarStream :=
  match a.container with
  | none => none
  | some m =>
    match selectCodec m.name with
    | none => none
    | some c =>
      match (m.decode c).result with
      | .error _ => none
      | .ok tr => some tr

/-- The Record of an archive: the bytes of the first inner entry named exactly
`./control`; empty when there is no such entry. -/
def Archive.record (a : Archive) : List Byte :=
  match a.inner with
  | none => []
  | some tr =>
    match tr.controlEntry with
    | none => []
    | some e => e.data

/-- The computed fields of a Stanza: Filename, Size, the three checksums of the
whole file, and the blank line. -/
def fieldLines (H : Hashes) (a : Archive) (name : String) : List Byte :=
  bytesOf (nameSizeLines name a.content.length) ++ bytesOf (checksumLines H a.content)

/-- The Stanza of an archive under a display name. -/
def stanza (H : Hashes) (a : Archive) (name : String) : List Byte :=
  a.record ++ fieldLines H a name

/-- The last two writes of `ExtractStanza`: the `Filename:` and `Size:` lines,
then the checksum lines of the whole file. -/
def writeFields (H : Hashes) (a : Archive) (name : String) (w : Sink) : Sink × Option Error :=
  match w.write (bytesOf (nameSizeLines name a.content.length)) with
  | (w2, some e) => (w2, some e)
  | (w2, none) => w2.write (bytesOf (checksumLines H a.content))

/-- What `ExtractStanza` does once the inner stream `tr` is open: copy the
entry `./control` if there is one, read the file to its end, write the fields;
the first error ends it. -/
def afterDecode (H : Hashes) (a : Archive) (tr : TarStream) (name : String) (w : Sink) :
    Sink × Option Error :=
  match (match tr.controlEntry with
    | some en => ioCopy w en.data en.readErr
    | none => (w, tr.stop.map .ext)) with
  | (w1, some e) => (w1, some e)
  | (w1, none) =>
    match a.drainErr with
    | some e => (w1, some (.ext e))
    | none => writeFields H a name w1

/-- The bytes of the first inner entry named `./control`, empty if none. -/
def TarStream.recordData (tr : TarStream) : List Byte :=
  match tr.controlEntry with
  | none => []
  | some e => e.data

/-- The visit is an error of the traversal itself. -/
def Visit.isFail : Visit → Bool
  | .deb _ _ _ => false
  | .fail _ => true

/-- What the visit adds to a sink that accepts every write, and the error it
ends with: for an archive, the outcome of its extraction under the display
name `./` followed by its path relative to the root. -/
def Visit.result (H : Hashes) : Visit → List Byte × Option Error
  | .deb path rel file =>
    ((ExtractStanza H file path ("./" ++ relName rel) ⟨[], none⟩).1.written,
      (ExtractStanza H file path ("./" ++ relName rel) ⟨[], none⟩).2)
  | .fail e => ([], some (.ext e))

/-- The Stanza of a visited archive, with Filename `./` followed by its path
relative to the root. -/
def Visit.stanza (H : Hashes) : Visit → List Byte
  | .deb _ rel (.ok a) => Debserve.stanza H a ("./" ++ relName rel)
  | _ => []

set_option maxRecDepth 100000

/-! ## Lemmas on the tee and the two loops -/

theorem Tee.inv_start (c : List Byte) : Tee.Inv c (Tee.start c) := by
  simp [Tee.Inv, Tee.start]

theorem Tee.inv_read {c : List Byte} {t : Tee} (h : Tee.Inv c t) (n : Nat) :
    Tee.Inv c (t.read n) := by
  unfold Tee.Inv at *
  simp [Tee.read, List.append_assoc, List.take_append_drop, h]

theorem Tee.drain_fed {c : List Byte} {t : Tee} (h : Tee.Inv c t) : t.drain.fed = c := by
  simpa [Tee.drain] using h

theorem findControl_inv {c : List Byte} (stop : Option ExtError) (stopCost : Nat)
    (ms : List ArMember) : ∀ t : Tee, Tee.Inv c t →
    Tee.Inv c (findControl t stop stopCost ms).1 := by
  induction ms with
  | nil =>
    intro t h
    cases stop <;> simpa [findControl] using Tee.inv_read h stopCost
  | cons m ms ih =>
    intro t h
    by_cases hp : HasPrefix m.name "control.tar" = true
    · simpa [findControl, hp] using Tee.inv_read h m.cost
    · simpa [findControl, hp] using ih _ (Tee.inv_read h m.cost)

theorem findControl_snd (t : Tee) (stop : Option ExtError) (stopCost : Nat)
    (ms : List ArMember) :
    (findControl t stop stopCost ms).2 =
      match ms.find? fun m => HasPrefix m.name "control.tar" with
      | some m => .ok (some m)
      | none =>
        match stop with
        | none => .ok none
        | some e => .error (.ext e) := by
  induction ms generalizing t with
  | nil => cases stop <;> simp [findControl]
  | cons m ms ih =>
    by_cases hp : HasPrefix m.name "control.tar" = true
    · simp [findControl, hp]
    · simp [findControl, hp, ih]

theorem copyControl_inv {c : List Byte} (stop : Option ExtError) (stopCost : Nat)
    (es : List TarEntry) : ∀ (t : Tee) (w : Sink), Tee.Inv c t →
    Tee.Inv c (copyControl stop stopCost t w es).1 := by
  induction es with
  | nil =>
    intro t w h
    simpa [copyControl] using Tee.inv_read h stopCost
  | cons e es ih =>
    intro t w h
    by_cases hn : e.name = "./control"
    · simpa [copyControl, hn] using Tee.inv_read (Tee.inv_read h e.cost) e.readCost
    · simpa [copyControl, hn] using ih _ w (Tee.inv_read h e.cost)

theorem copyControl_snd (stop : Option ExtError) (stopCost : Nat) (es : List TarEntry)
    (t : Tee) (w : Sink) :
    (copyControl stop stopCost t w es).2 =
      match es.find? fun e => e.name = "./control" with
      | some e => ioCopy w e.data e.readErr
      | none => (w, stop.map .ext) := by
  induction es generalizing t with
  | nil => simp [copyControl]
  | cons e es ih =>
    by_cases hn : e.name = "./control"
    · simp [copyControl, hn]
    · simp [copyControl, hn, ih]

/-- The outcome of `ExtractStanza` on an opened archive, by cases on what the
readers deliver. -/
theorem ExtractStanza_ok_eq (H : Hashes) (a : Archive) (debfile filepath : String) (w : Sink) :
    ExtractStanza H (.ok a) debfile filepath w =
      match a.container with
      | none =>
        match a.stop with
        | some e => (w, some (.ext e))
        | none => (w, some (.errorf ("control file not found in " ++ debfile)))
      | some m =>
        match selectCodec m.name with
        | none => (w, some (.errorf ("unsupported control archive format: " ++ m.name)))
        | some c =>
          match (m.decode c).result with
          | .error e => (w, some (.ext e))
          | .ok tr => afterDecode H a tr (if filepath = "" then debfile else filepath) w := by
  have hinv := findControl_inv (c := a.content) a.stop a.stopCost a.members _
    (Tee.inv_read (Tee.inv_start a.content) a.preamble)
  have hsnd := findControl_snd ((Tee.start a.content).read a.preamble) a.stop a.stopCost a.members
  unfold ExtractStanza Archive.container
  rcases hr : findControl ((Tee.start a.content).read a.preamble) a.stop a.stopCost a.members
    with ⟨tee, res⟩
  rw [hr] at hinv hsnd
  simp only [hr]
  simp only at hinv hsnd
  subst hsnd
  cases hf : a.members.find? fun m => HasPrefix m.name "control.tar" with
  | none => cases a.stop <;> simp
  | some m =>
    simp only
    cases hc : selectCodec m.name with
    | none => simp
    | some c =>
      simp only
      cases hd : (m.decode c).result with
      | error e => simp
      | ok tr =>
        simp only
        have hinv2 := copyControl_inv (c := a.content) tr.stop tr.stopCost tr.entries
          (tee.read (m.decode c).cost) w (Tee.inv_read hinv _)
        have hsnd2 := copyControl_snd tr.stop tr.stopCost tr.entries
          (tee.read (m.decode c).cost) w
        rcases hr2 : copyControl tr.stop tr.stopCost (tee.read (m.decode c).cost) w tr.entries
          with ⟨tee1, w1, err⟩
        rw [hr2] at hinv2 hsnd2
        simp only at hinv2 hsnd2
        unfold afterDecode TarStream.controlEntry writeFields
        rw [← hsnd2]
        cases err with
        | some e => rfl
        | none =>
          simp only
          cases a.drainErr with
          | some e => rfl
          | none => simp only [Tee.drain_fed hinv2]

/-! ## Text helpers -/

theorem bytesOf_append (s t : String) : bytesOf (s ++ t) = bytesOf s ++ bytesOf t := by
  simp [bytesOf, String.toList, String.data_append]

theorem hexChars_length (bs : List Byte) : (hexChars bs).length = 2 * bs.length := by
  induction bs with
  | nil => rfl
  | cons b bs ih =>
    simp only [hexChars, List.flatMap_cons, List.length_append, List.length_cons,
      List.length_nil] at ih ⊢
    omega

theorem hextable_getD_mem (i : Nat) (h : i < 16) : hextable.getD i '0' ∈ hextable := by
  interval_cases i <;> decide

theorem hexChars_mem (bs : List Byte) : ∀ ch ∈ hexChars bs, ch ∈ hextable := by
  intro ch hch
  simp only [hexChars, List.mem_flatMap, List.mem_cons, List.mem_singleton] at hch
  obtain ⟨b, -, hb⟩ := hch
  have hlt : b.toNat < 256 := UInt8.toNat_lt_size b
  rcases hb with rfl | rfl | hb
  · exact hextable_getD_mem _ (by omega)
  · exact hextable_getD_mem _ (by omega)
  · simp at hb

theorem hexEncodeToString_length (bs : List Byte) :
    (hexEncodeToString bs).length = 2 * bs.length := by
  simp [hexEncodeToString, String.length, hexChars_length]

theorem fieldLines_eq (H : Hashes) (a : Archive) (name : String) :
    fieldLines H a name =
      bytesOf ("Filename: " ++ name ++ "\n") ++
      bytesOf ("Size: " ++ toString a.content.length ++ "\n") ++
      bytesOf ("MD5sum: " ++ hexEncodeToString (H.md5 a.content) ++ "\n") ++
      bytesOf ("SHA1: " ++ hexEncodeToString (H.sha1 a.content) ++ "\n") ++
      bytesOf ("SHA256: " ++ hexEncodeToString (H.sha256 a.content) ++ "\n") ++
      bytesOf "\n" := by
  have h2 : ("\n\n" : String) = "\n" ++ "\n" := by decide
  have h1 : ("\nSize: " : String) = "\n" ++ "Size: " := by decide
  simp only [fieldLines, nameSizeLines, checksumLines, h1, h2, bytesOf_append,
    List.append_assoc]

theorem checksumLines_pos (H : Hashes) (c : List Byte) :
    0 < (bytesOf (checksumLines H c)).length := by
  have h2 : ("\n\n" : String) = "\n" ++ "\n" := by decide
  have h3 : (bytesOf "\n").length = 1 := by decide
  simp only [checksumLines, h2, bytesOf_append, List.length_append, h3]
  omega

/-! ## Writes to the sink -/

/-- What a write leaves in the sink: a part `q` of `p` from its start, all of
`p` exactly when the write returns no error. -/
theorem Sink.write_spec (w : Sink) (p : List Byte) :
    ∃ q : List Byte, (w.write p).1.written = w.written ++ q ∧ q <+: p ∧
      ((w.write p).2 = none → q = p) ∧
      ((w.write p).2 ≠ none → q.length < p.length) ∧
      (∀ e, (w.write p).2 = some e → ∃ x, e = .ext x) := by
  unfold Sink.write
  cases hf : w.fault with
  | none => exact ⟨p, rfl, List.prefix_refl p, fun _ => rfl, fun h => absurd rfl h, by simp⟩
  | some ne =>
    obtain ⟨n, e⟩ := ne
    by_cases hle : p.length ≤ n
    · simp only [hle, if_true]
      exact ⟨p, rfl, List.prefix_refl p, fun _ => rfl, fun h => absurd rfl h, by simp⟩
    · simp only [hle, if_false]
      refine ⟨p.take n, rfl, List.take_prefix n p, by simp, fun _ => ?_, by simp⟩
      rw [List.length_take]
      omega

theorem Sink.write_reliable (w : Sink) (p : List Byte) (h : w.fault = none) :
    w.write p = (⟨w.written ++ p, none⟩, none) := by
  simp [Sink.write, h]

/-- What writing the fields leaves in the sink: a part of the field lines from
their start, all of them exactly when there is no error. -/
theorem writeFields_spec (H : Hashes) (a : Archive) (name : String) (w : Sink) :
    ∃ q : List Byte, (writeFields H a name w).1.written = w.written ++ q ∧
      q <+: fieldLines H a name ∧
      ((writeFields H a name w).2 = none → q = fieldLines H a name) ∧
      ((writeFields H a name w).2 ≠ none → q.length < (fieldLines H a name).length) ∧
      (∀ e, (writeFields H a name w).2 = some e → ∃ x, e = .ext x) := by
  obtain ⟨q1, h1w, h1p, h1ok, h1err, h1ext⟩ :=
    Sink.write_spec w (bytesOf (nameSizeLines name a.content.length))
  unfold writeFields fieldLines
  rcases hr : w.write (bytesOf (nameSizeLines name a.content.length)) with ⟨w2, _ | e⟩
  · rw [hr] at h1w h1ok
    simp only at h1w h1ok
    have hq1 := h1ok trivial
    subst hq1
    obtain ⟨q2, h2w, h2p, h2ok, h2err, h2ext⟩ :=
      Sink.write_spec w2 (bytesOf (checksumLines H a.content))
    simp only
    refine ⟨bytesOf (nameSizeLines name a.content.length) ++ q2, ?_, ?_, ?_, ?_, h2ext⟩
    · rw [h2w, h1w, List.append_assoc]
    · exact (List.prefix_append_right_inj _).2 h2p
    · intro h; rw [h2ok h]
    · intro h
      have := h2err h
      simp only [List.length_append]
      omega
  · rw [hr] at h1w h1err h1ext
    simp only at h1w h1err h1ext
    simp only
    refine ⟨q1, h1w, h1p.trans (List.prefix_append _ _), by simp, fun _ => ?_, h1ext⟩
    have := h1err (by simp)
    simp only [List.length_append]
    omega

/-- What `ExtractStanza` leaves in the sink once the inner stream is open: a
part, from its start, of the Record followed by the field lines; all of it
exactly when there is no error. -/
theorem afterDecode_spec (H : Hashes) (a : Archive) (tr : TarStream) (name : String)
    (w : Sink) :
    ∃ out : List Byte, (afterDecode H a tr name w).1.written = w.written ++ out ∧
      out <+: tr.recordData ++ fieldLines H a name ∧
      ((afterDecode H a tr name w).2 = none → out = tr.recordData ++ fieldLines H a name) ∧
      ((afterDecode H a tr name w).2 ≠ none →
        out.length < (tr.recordData ++ fieldLines H a name).length) ∧
      (∀ e, (afterDecode H a tr name w).2 = some e → ∃ x, e = .ext x) := by
  have hpos : 0 < (fieldLines H a name).length := by
    have := checksumLines_pos H a.content
    simp only [fieldLines, List.length_append]
    omega
  -- the state after the copy of the Record
  have hcopy : ∃ (w1 : Sink) (err1 : Option Error) (q : List Byte),
      (match tr.controlEntry with
        | some en => ioCopy w en.data en.readErr
        | none => (w, tr.stop.map .ext)) = (w1, err1) ∧
      w1.written = w.written ++ q ∧ q <+: tr.recordData ∧
      (err1 = none → q = tr.recordData) ∧ (∀ e, err1 = some e → ∃ x, e = .ext x) := by
    unfold TarStream.recordData
    cases he : tr.controlEntry with
    | none =>
      refine ⟨w, tr.stop.map .ext, [], rfl, by simp, List.prefix_refl _, fun _ => rfl, ?_⟩
      intro e h
      cases hs : tr.stop with
      | none => simp [hs] at h
      | some x => exact ⟨x, by simpa [hs] using h.symm⟩
    | some en =>
      obtain ⟨q, hw, hp, hok, _, hext⟩ := Sink.write_spec w en.data
      unfold ioCopy
      rcases hr : w.write en.data with ⟨w1, _ | e⟩
      · rw [hr] at hw hok
        simp only at hw hok
        refine ⟨w1, en.readErr.map .ext, q, by simp only [hr], hw, hp, fun _ => hok trivial, ?_⟩
        intro e h
        cases hre : en.readErr with
        | none => simp [hre] at h
        | some x => exact ⟨x, by simpa [hre] using h.symm⟩
      · rw [hr] at hw hext
        simp only at hw hext
        exact ⟨w1, some e, q, by simp only [hr], hw, hp, by simp, fun e' h => hext e' h⟩
  obtain ⟨w1, err1, q, hmatch, hw1, hq, hqok, hqext⟩ := hcopy
  unfold afterDecode
  rw [hmatch]
  cases err1 with
  | some e =>
    simp only
    refine ⟨q, hw1, hq.trans (List.prefix_append _ _), by simp, fun _ => ?_, ?_⟩
    · have := hq.length_le
      simp only [List.length_append]
      omega
    · intro e' h
      exact hqext e' (by simpa using h)
  | none =>
    have hqeq := hqok rfl
    subst hqeq
    simp only
    cases hd : a.drainErr with
    | some e =>
      simp only
      refine ⟨tr.recordData, hw1, List.prefix_append _ _, by simp, fun _ => ?_, ?_⟩
      · simp only [List.length_append]
        omega
      · intro e' h
        exact ⟨e, by simpa using h.symm⟩
    | none =>
      simp only
      obtain ⟨q2, h2w, h2p, h2ok, h2err, h2ext⟩ := writeFields_spec H a name w1
      refine ⟨tr.recordData ++ q2, ?_, ?_, ?_, ?_, h2ext⟩
      · rw [h2w, hw1, List.append_assoc]
      · exact (List.prefix_append_right_inj _).2 h2p
      · intro h; rw [h2ok h]
      · intro h
        have := h2err h
        simp only [List.length_append]
        omega

theorem Archive.record_eq {a : Archive} {m : ArMember} {c : Codec} {tr : TarStream}
    (hc : a.container = some m) (hsel : selectCodec m.name = some c)
    (hd : (m.decode c).result = .ok tr) : a.record = tr.recordData := by
  simp only [Archive.record, Archive.inner, hc, hsel, hd, TarStream.recordData]

/-- A successful extraction leaves the Record followed by the computed fields. -/
theorem ExtractStanza_success (H : Hashes) (a : Archive) (debfile filepath : String)
    (w w' : Sink) (h : ExtractStanza H (.ok a) debfile filepath w = (w', none)) :
    w'.written = w.written ++ a.record ++
      fieldLines H a (if filepath = "" then debfile else filepath) := by
  rw [ExtractStanza_ok_eq] at h
  cases hc : a.container with
  | none => rw [hc] at h; cases hs : a.stop <;> simp [hs] at h
  | some m =>
    rw [hc] at h
    simp only at h
    cases hsel : selectCodec m.name with
    | none => simp [hsel] at h
    | some c =>
      simp only [hsel] at h
      cases hd : (m.decode c).result with
      | error e => simp [hd] at h
      | ok tr =>
        simp only [hd] at h
        obtain ⟨out, hw, -, hok, -, -⟩ :=
          afterDecode_spec H a tr (if filepath = "" then debfile else filepath) w
        rw [h] at hw hok
        simp only at hw hok
        rw [hw, hok trivial, Archive.record_eq hc hsel hd, List.append_assoc]

/-! ## Claims on ExtractStanza -/

/-- C1: when `ExtractStanza` succeeds on an archive, the bytes it adds to the
sink are exactly the Record (the bytes of the first inner entry named
`./control`), then the `Filename:` line with the display path, or the archive
path when the display path is empty, the `Size:` line with the decimal size of
the whole archive file, the `MD5sum:`, `SHA1:` and `SHA256:` lines with 32, 40
and 64 hex characters, and one empty line. -/
theorem ExtractStanza_output_format (H : Hashes) (a : Archive) (debfile filepath : String)
    (w w' : Sink) (h : ExtractStanza H (.ok a) debfile filepath w = (w', none)) :
    ∃ d1 d2 d3 : String,
      (d1.length = 32 ∧ ∀ ch ∈ d1.toList, ch ∈ hextable) ∧
      (d2.length = 40 ∧ ∀ ch ∈ d2.toList, ch ∈ hextable) ∧
      (d3.length = 64 ∧ ∀ ch ∈ d3.toList, ch ∈ hextable) ∧
      w'.written = w.written ++ a.record ++
        bytesOf ("Filename: " ++ (if filepath = "" then debfile else filepath) ++ "\n") ++
        bytesOf ("Size: " ++ toString a.content.length ++ "\n") ++
        bytesOf ("MD5sum: " ++ d1 ++ "\n") ++
        bytesOf ("SHA1: " ++ d2 ++ "\n") ++
        bytesOf ("SHA256: " ++ d3 ++ "\n") ++
        bytesOf "\n" := by
  refine ⟨hexEncodeToString (H.md5 a.content), hexEncodeToString (H.sha1 a.content),
    hexEncodeToString (H.sha256 a.content), ⟨?_, ?_⟩, ⟨?_, ?_⟩, ⟨?_, ?_⟩, ?_⟩
  · rw [hexEncodeToString_length, H.md5_size]
  · exact hexChars_mem _
  · rw [hexEncodeToString_length, H.sha1_size]
  · exact hexChars_mem _
  · rw [hexEncodeToString_length, H.sha256_size]
  · exact hexChars_mem _
  · rw [ExtractStanza_success H a debfile filepath w w' h, fieldLines_eq]
    simp only [List.append_assoc]

/-- The extraction of `sampleDeb` succeeds and has the format of C1. -/
theorem ExtractStanza_output_format_witness :
    ExtractStanza toyHashes (.ok sampleDeb) "x.deb" "" ⟨[], none⟩ =
      (⟨bytesOf ("P\nFilename: x.deb\nSize: 12\nMD5sum: abababababababababababababababab\n" ++
        "SHA1: 0101010101010101010101010101010101010101\n" ++
        "SHA256: f0f0f0f0f0f0f0f0f0f0f0f0f0f0f0f0f0f0f0f0f0f0f0f0f0f0f0f0f0f0f0f0\n\n"), none⟩,
        none) ∧
    ∃ d1 d2 d3 : String,
      (d1.length = 32 ∧ ∀ ch ∈ d1.toList, ch ∈ hextable) ∧
      (d2.length = 40 ∧ ∀ ch ∈ d2.toList, ch ∈ hextable) ∧
      (d3.length = 64 ∧ ∀ ch ∈ d3.toList, ch ∈ hextable) ∧
      (ExtractStanza toyHashes (.ok sampleDeb) "x.deb" "" ⟨[], none⟩).1.written =
        (⟨[], none⟩ : Sink).written ++ sampleDeb.record ++
        bytesOf ("Filename: " ++ (if "" = "" then "x.deb" else "") ++ "\n") ++
        bytesOf ("Size: " ++ toString sampleDeb.content.length ++ "\n") ++
        bytesOf ("MD5sum: " ++ d1 ++ "\n") ++
        bytesOf ("SHA1: " ++ d2 ++ "\n") ++
        bytesOf ("SHA256: " ++ d3 ++ "\n") ++
        bytesOf "\n" :=
  ⟨by decide, ExtractStanza_output_format toyHashes sampleDeb "x.deb" "" ⟨[], none⟩ _
    (by decide)⟩

/-- C2: when `ExtractStanza` succeeds, the three digests it writes are the MD5,
SHA-1 and SHA-256 of the whole content of the archive file.  The bytes fed to
the running digests are at every point the part of the file read so far (the
invariant `Tee.Inv` holds at the start and is kept by every read, by both loops
whatever the readers consume and whether or not an entry is found), and the
final drain completes them to the whole file. -/
theorem ExtractStanza_digests_whole_file (H : Hashes) (a : Archive)
    (debfile filepath : String) (w w' : Sink)
    (h : ExtractStanza H (.ok a) debfile filepath w = (w', none)) :
    Tee.Inv a.content (Tee.start a.content) ∧
    (∀ (t : Tee) (n : Nat), Tee.Inv a.content t → Tee.Inv a.content (t.read n)) ∧
    (∀ (t : Tee) stop stopCost ms, Tee.Inv a.content t →
      Tee.Inv a.content (findControl t stop stopCost ms).1) ∧
    (∀ (t : Tee) (s : Sink) stop stopCost es, Tee.Inv a.content t →
      Tee.Inv a.content (copyControl stop stopCost t s es).1) ∧
    (∀ t : Tee, Tee.Inv a.content t → t.drain.fed = a.content ∧ t.drain.rest = []) ∧
    ∃ body : List Byte, w'.written = w.written ++ body ++
      bytesOf ("MD5sum: " ++ hexEncodeToString (H.md5 a.content) ++ "\n" ++
        "SHA1: " ++ hexEncodeToString (H.sha1 a.content) ++ "\n" ++
        "SHA256: " ++ hexEncodeToString (H.sha256 a.content) ++ "\n\n") := by
  refine ⟨Tee.inv_start _, fun t n ht => Tee.inv_read ht n,
    fun t stop stopCost ms ht => findControl_inv stop stopCost ms t ht,
    fun t s stop stopCost es ht => copyControl_inv stop stopCost es t s ht,
    fun t ht => ⟨Tee.drain_fed ht, rfl⟩, ?_⟩
  refine ⟨a.record ++ bytesOf (nameSizeLines (if filepath = "" then debfile else filepath)
    a.content.length), ?_⟩
  rw [ExtractStanza_success H a debfile filepath w w' h]
  simp only [fieldLines, checksumLines, List.append_assoc]

/-- On `sampleDeb` (12 bytes, of which the readers consume some) the digests
written are those of the 12 bytes. -/
theorem ExtractStanza_digests_whole_file_witness :
    ExtractStanza toyHashes (.ok sampleDeb) "x.deb" "./x.deb" ⟨[], none⟩ =
      ((ExtractStanza toyHashes (.ok sampleDeb) "x.deb" "./x.deb" ⟨[], none⟩).1, none) ∧
    ∃ body : List Byte,
      (ExtractStanza toyHashes (.ok sampleDeb) "x.deb" "./x.deb" ⟨[], none⟩).1.written =
        (⟨[], none⟩ : Sink).written ++ body ++
        bytesOf ("MD5sum: " ++ hexEncodeToString (toyHashes.md5 sampleDeb.content) ++ "\n" ++
          "SHA1: " ++ hexEncodeToString (toyHashes.sha1 sampleDeb.content) ++ "\n" ++
          "SHA256: " ++ hexEncodeToString (toyHashes.sha256 sampleDeb.content) ++ "\n\n") :=
  ⟨by decide,
    (ExtractStanza_digests_whole_file toyHashes sampleDeb "x.deb" "./x.deb" ⟨[], none⟩ _
      (by decide)).2.2.2.2.2⟩

theorem errorf_messages_differ (x y : String) :
    Error.errorf ("unsupported control archive format: " ++ x) ≠
      Error.errorf ("control file not found in " ++ y) := by
  intro h
  have h1 := congrArg String.data (Error.errorf.inj h)
  simp only [String.data_append] at h1
  have h2 := congrArg List.head? h1
  simp at h2

theorem container_none_iff (a : Archive) :
    a.container = none ↔ ∀ m ∈ a.members, HasPrefix m.name "control.tar" = false := by
  simp [Archive.container, List.find?_eq_none]

/-- C7: on a readable archive (the member sequence ends with `io.EOF`) none of
whose member names starts with `control.tar`, `ExtractStanza` fails with the
error `control file not found in <debfile>` and leaves the sink as it was; and
whenever it returns that error the archive is such an archive, so an archive
that has a member whose name starts with `control.tar` never gives it. -/
theorem ExtractStanza_container_not_found (H : Hashes) (a : Archive)
    (debfile filepath : String) (w : Sink) :
    (a.stop = none → (∀ m ∈ a.members, HasPrefix m.name "control.tar" = false) →
      ExtractStanza H (.ok a) debfile filepath w =
        (w, some (.errorf ("control file not found in " ++ debfile)))) ∧
    ((ExtractStanza H (.ok a) debfile filepath w).2 =
        some (.errorf ("control file not found in " ++ debfile)) →
      a.stop = none ∧ ∀ m ∈ a.members, HasPrefix m.name "control.tar" = false) := by
  rw [ExtractStanza_ok_eq]
  constructor
  · intro hs hm
    rw [(container_none_iff a).2 hm, hs]
  · intro h
    cases hc : a.container with
    | none =>
      rw [hc] at h
      refine ⟨?_, (container_none_iff a).1 hc⟩
      cases hs : a.stop with
      | none => rfl
      | some e => simp [hs] at h
    | some m =>
      exfalso
      rw [hc] at h
      simp only at h
      cases hsel : selectCodec m.name with
      | none =>
        simp only [hsel, Option.some.injEq] at h
        exact errorf_messages_differ _ _ h
      | some c =>
        simp only [hsel] at h
        cases hd : (m.decode c).result with
        | error e => simp [hd] at h
        | ok tr =>
          simp only [hd] at h
          obtain ⟨out, -, -, -, -, hext⟩ :=
            afterDecode_spec H a tr (if filepath = "" then debfile else filepath) w
          obtain ⟨x, hx⟩ := hext _ h
          exact Error.noConfusion hx

/-- The archive `noControlDeb` gives the container-not-found error, naming the
path. -/
theorem ExtractStanza_container_not_found_witness :
    ExtractStanza toyHashes (.ok noControlDeb) "pool/x.deb" "./x.deb" ⟨[1, 2], none⟩ =
      (⟨[1, 2], none⟩, some (.errorf "control file not found in pool/x.deb")) :=
  (ExtractStanza_container_not_found toyHashes noControlDeb "pool/x.deb" "./x.deb"
    ⟨[1, 2], none⟩).1 (by decide) (by decide)

/-- C8: when the first member whose name starts with `control.tar` has a name
other than `control.tar.gz`, `control.tar.xz`, `control.tar.lzma` and
`control.tar.bz2`, `ExtractStanza` fails with the error
`unsupported control archive format: <name>` and writes nothing to the sink,
whatever members follow. -/
theorem ExtractStanza_unsupported_format (H : Hashes) (a : Archive)
    (debfile filepath : String) (w : Sink) (pre post : List ArMember) (m : ArMember)
    (hmem : a.members = pre ++ m :: post)
    (hpre : ∀ x ∈ pre, HasPrefix x.name "control.tar" = false)
    (hm : HasPrefix m.name "control.tar" = true)
    (hname : m.name ≠ "control.tar.gz" ∧ m.name ≠ "control.tar.xz" ∧
      m.name ≠ "control.tar.lzma" ∧ m.name ≠ "control.tar.bz2") :
    ExtractStanza H (.ok a) debfile filepath w =
      (w, some (.errorf ("unsupported control archive format: " ++ m.name))) := by
  have hc : a.container = some m := by
    unfold Archive.container
    rw [hmem, List.find?_append, List.find?_eq_none.2 (by simpa using hpre)]
    simp [hm]
  have hsel : selectCodec m.name = none := by
    simp [selectCodec, hname.1, hname.2.1, hname.2.2.1, hname.2.2.2]
  rw [ExtractStanza_ok_eq, hc]
  simp only [hsel]

/-- On `zstdDeb` the member `control.tar.zstd` comes first: the extraction fails
as unsupported although `control.tar.gz` follows. -/
theorem ExtractStanza_unsupported_format_witness :
    ExtractStanza toyHashes (.ok zstdDeb) "x.deb" "./x.deb" ⟨[7], none⟩ =
      (⟨[7], none⟩, some (.errorf "unsupported control archive format: control.tar.zstd")) :=
  ExtractStanza_unsupported_format toyHashes zstdDeb "x.deb" "./x.deb" ⟨[7], none⟩
    [⟨"debian-binary", 1, fun _ => ⟨0, .error ⟨"no"⟩⟩⟩]
    [⟨"control.tar.gz", 1, fun _ => ⟨1, .ok sampleTar⟩⟩]
    ⟨"control.tar.zstd", 1, fun _ => ⟨1, .ok sampleTar⟩⟩
    rfl (by decide) (by decide) (by decide)

/-- C9: when the Metadata Container is supported and well formed (its
decompressor opens and the inner stream ends with `io.EOF`) but has no entry
named exactly `./control`, then, the file reading to its end and the sink
accepting the writes, `ExtractStanza` returns no error and adds to the sink a
Stanza with an empty body: the `Filename:`, `Size:`, `MD5sum:`, `SHA1:` and
`SHA256:` lines and one blank line. -/
theorem ExtractStanza_missing_record (H : Hashes) (a : Archive)
    (debfile filepath : String) (w : Sink) (m : ArMember) (c : Codec) (tr : TarStream)
    (hc : a.container = some m) (hsel : selectCodec m.name = some c)
    (hd : (m.decode c).result = .ok tr) (hstop : tr.stop = none)
    (hno : ∀ e ∈ tr.entries, e.name ≠ "./control")
    (hread : a.drainErr = none) (hw : w.fault = none) :
    ExtractStanza H (.ok a) debfile filepath w =
      (⟨w.written ++
        bytesOf ("Filename: " ++ (if filepath = "" then debfile else filepath) ++ "\n") ++
        bytesOf ("Size: " ++ toString a.content.length ++ "\n") ++
        bytesOf ("MD5sum: " ++ hexEncodeToString (H.md5 a.content) ++ "\n") ++
        bytesOf ("SHA1: " ++ hexEncodeToString (H.sha1 a.content) ++ "\n") ++
        bytesOf ("SHA256: " ++ hexEncodeToString (H.sha256 a.content) ++ "\n") ++
        bytesOf "\n", none⟩, none) := by
  have he : tr.controlEntry = none := by
    unfold TarStream.controlEntry
    exact List.find?_eq_none.2 (by simpa using hno)
  rw [ExtractStanza_ok_eq, hc]
  simp only [hsel, hd, afterDecode, he, hstop, hread, writeFields, Option.map_none']
  rw [Sink.write_reliable w _ hw]
  simp only
  rw [Sink.write_reliable _ _ rfl]
  have hf := fieldLines_eq H a (if filepath = "" then debfile else filepath)
  simp only [fieldLines] at hf
  simp only [List.append_assoc] at hf ⊢
  rw [hf]

/-- On `noRecordDeb`, whose container holds `control` but not `./control`, the
extraction succeeds with an empty body. -/
theorem ExtractStanza_missing_record_witness :
    ExtractStanza toyHashes (.ok noRecordDeb) "x.deb" "" ⟨[], none⟩ =
      (⟨bytesOf ("Filename: x.deb\nSize: 9\nMD5sum: abababababababababababababababab\n" ++
        "SHA1: 0101010101010101010101010101010101010101\n" ++
        "SHA256: f0f0f0f0f0f0f0f0f0f0f0f0f0f0f0f0f0f0f0f0f0f0f0f0f0f0f0f0f0f0f0f0\n\n"), none⟩,
        none) :=
  (ExtractStanza_missing_record toyHashes noRecordDeb "x.deb" "" ⟨[], none⟩
    ⟨"control.tar.xz", 1, fun _ => ⟨1, .ok plainNameTar⟩⟩ .xz plainNameTar
    rfl (by decide) rfl rfl (by decide) rfl rfl).trans (by decide)

/-! ## Lemmas on paths -/

theorem splitSep_ne_nil (p : List Char) : splitSep p ≠ [] := by
  cases p with
  | nil => simp [splitSep]
  | cons c cs =>
    unfold splitSep
    split
    · simp
    · split <;> simp

theorem splitSep_append_sep (a b : List Char) :
    splitSep (a ++ '/' :: b) = splitSep a ++ splitSep b := by
  induction a with
  | nil => simp [splitSep]
  | cons c a ih =>
    by_cases hc : c = '/'
    · simp [splitSep, hc, ih]
    · have hne := splitSep_ne_nil a
      cases hs : splitSep a with
      | nil => exact absurd hs hne
      | cons x xs =>
        show splitSep (c :: (a ++ '/' :: b)) = splitSep (c :: a) ++ splitSep b
        rw [splitSep, if_neg hc, ih, hs, splitSep, if_neg hc, hs]
        rfl

theorem splitSep_of_noSep (n : List Char) (h : '/' ∉ n) : splitSep n = [n] := by
  induction n with
  | nil => rfl
  | cons c n ih =>
    have hc : c ≠ '/' := fun e => h (by simp [e])
    have hn : '/' ∉ n := fun e => h (by simp [e])
    simp [splitSep, hc, ih hn]

theorem splitSep_mem_noSep (p : List Char) : ∀ e ∈ splitSep p, '/' ∉ e := by
  induction p with
  | nil => simp [splitSep]
  | cons c cs ih =>
    by_cases hc : c = '/'
    · intro e he
      simp only [splitSep, hc, if_true, List.mem_cons] at he
      rcases he with rfl | he
      · simp
      · exact ih e he
    · have hne := splitSep_ne_nil cs
      cases hs : splitSep cs with
      | nil => exact absurd hs hne
      | cons x xs =>
        rw [hs] at ih
        intro e he
        simp only [splitSep, hc, if_false, hs, List.mem_cons] at he
        rcases he with rfl | he
        · have hx := ih x (by simp)
          intro hmem
          rcases List.mem_cons.1 hmem with h1 | h1
          · exact hc h1.symm
          · exact hx h1
        · exact ih e (by simp [he])

theorem splitSep_joinSep (es : List (List Char)) (hne : es ≠ [])
    (h : ∀ e ∈ es, '/' ∉ e) : splitSep (joinSep es) = es := by
  induction es with
  | nil => exact absurd rfl hne
  | cons x rest ih =>
    cases rest with
    | nil => simpa [joinSep] using splitSep_of_noSep x (h x (by simp))
    | cons y rest =>
      have hx := splitSep_of_noSep x (h x (by simp))
      have hr := ih (by simp) (fun e he => h e (by simp [he]))
      simp only [joinSep, splitSep_append_sep, hx, hr, List.singleton_append]

theorem Good.tail {r : Bool} {e : List Char} {kept : List (List Char)}
    (h : Good r (e :: kept)) : Good r kept := h.2.2

theorem Good.of_append {r : Bool} (front : List (List Char)) {kept : List (List Char)}
    (h : Good r (front ++ kept)) : Good r kept := by
  induction front with
  | nil => exact h
  | cons e front ih => exact ih (Good.tail h)

theorem Good.elem {r : Bool} {kept : List (List Char)} (h : Good r kept) :
    ∀ e ∈ kept, GoodElem e := by
  induction kept with
  | nil => simp
  | cons x kept ih =>
    intro e he
    rcases List.mem_cons.1 he with rfl | he
    · exact h.1
    · exact ih (Good.tail h) e he

theorem cleanStep_good {r : Bool} {kept : List (List Char)} (e : List Char)
    (hk : Good r kept) (he : '/' ∉ e) : Good r (cleanStep r kept e) := by
  unfold cleanStep
  by_cases h1 : e = [] ∨ e = ['.']
  · simpa [h1] using hk
  · rw [if_neg h1]
    have hg : GoodElem e := ⟨fun h => h1 (Or.inl h), fun h => h1 (Or.inr h), he⟩
    by_cases h2 : e = ['.', '.']
    · rw [if_pos h2]
      cases kept with
      | nil =>
        cases r with
        | true => simp [Good]
        | false => simpa [Good] using hg
      | cons top below =>
        by_cases h3 : top = ['.', '.']
        · simp only [h3, if_true]
          have htop := hk.2.1 h3
          refine ⟨hg, fun _ => ⟨htop.1, ?_⟩, ?_⟩
          · intro x hx
            rcases List.mem_cons.1 hx with rfl | hx
            · rfl
            · exact htop.2 x hx
          · rw [h3] at hk; exact hk
        · simpa [h3] using Good.tail hk
    · rw [if_neg h2]
      exact ⟨hg, fun h => absurd h h2, hk⟩

theorem foldl_cleanStep_good {r : Bool} (es : List (List Char)) :
    ∀ kept : List (List Char), Good r kept → (∀ e ∈ es, '/' ∉ e) →
    Good r (es.foldl (cleanStep r) kept) := by
  induction es with
  | nil => intro kept hk _; exact hk
  | cons e es ih =>
    intro kept hk h
    exact ih _ (cleanStep_good e hk (h e (by simp))) (fun x hx => h x (by simp [hx]))

theorem cleanStep_of_good {r : Bool} {kept : List (List Char)} {e : List Char}
    (h : Good r (e :: kept)) : cleanStep r kept e = e :: kept := by
  unfold cleanStep
  have hg := h.1
  have h1 : ¬ (e = [] ∨ e = ['.']) := fun o => o.elim hg.1 hg.2.1
  rw [if_neg h1]
  by_cases h2 : e = ['.', '.']
  · rw [if_pos h2]
    obtain ⟨hr, hall⟩ := h.2.1 h2
    cases kept with
    | nil => simp [hr]
    | cons top below => simp [hall top (by simp)]
  · rw [if_neg h2]

theorem foldl_cleanStep_of_good {r : Bool} (es : List (List Char)) :
    ∀ kept : List (List Char), Good r (es.reverse ++ kept) →
    es.foldl (cleanStep r) kept = es.reverse ++ kept := by
  induction es with
  | nil => intro kept _; rfl
  | cons e es ih =>
    intro kept h
    have h' : Good r (es.reverse ++ e :: kept) := by
      simpa [List.reverse_cons, List.append_assoc] using h
    rw [List.foldl_cons, cleanStep_of_good (Good.of_append _ h'), ih _ h']
    simp [List.reverse_cons, List.append_assoc]

theorem cleanElems_of_good {r : Bool} {es : List (List Char)} (h : Good r es.reverse) :
    cleanElems r es = es := by
  unfold cleanElems
  rw [foldl_cleanStep_of_good es [] (by simpa using h)]
  simp

theorem norm_good (p : List Char) : Good (norm p).1 (norm p).2.reverse := by
  unfold norm cleanElems
  simp only [List.reverse_reverse]
  exact foldl_cleanStep_good _ [] trivial (splitSep_mem_noSep p)

theorem head?_of_goodElem {e : List Char} (h : GoodElem e) :
    ∃ c cs, e = c :: cs ∧ c ≠ '/' := by
  cases e with
  | nil => exact absurd rfl h.1
  | cons c cs => exact ⟨c, cs, rfl, fun hc => h.2.2 (by simp [hc])⟩

theorem head?_joinSep {es : List (List Char)} (hne : es ≠ [])
    (h : ∀ e ∈ es, GoodElem e) : ∃ c, (joinSep es).head? = some c ∧ c ≠ '/' := by
  cases es with
  | nil => exact absurd rfl hne
  | cons x rest =>
    obtain ⟨c, cs, hx, hc⟩ := head?_of_goodElem (h x (by simp))
    subst hx
    cases rest with
    | nil => exact ⟨c, by simp [joinSep], hc⟩
    | cons y rest => exact ⟨c, by simp [joinSep], hc⟩

theorem cleanStep_skip (r : Bool) (kept : List (List Char)) :
    cleanStep r kept [] = kept ∧ cleanStep r kept ['.'] = kept := by
  constructor <;> simp [cleanStep]

/-- Cleaning a cleaned path changes nothing: the normal form of the string of a
normal form is that normal form. -/
theorem norm_render (n : Norm) (h : Good n.1 n.2.reverse) : norm (render n) = n := by
  obtain ⟨r, es⟩ := n
  simp only at h
  have helem : ∀ e ∈ es, GoodElem e := fun e he => Good.elem h e (by simpa using he)
  have hsep : ∀ e ∈ es, '/' ∉ e := fun e he => (helem e he).2.2
  cases r with
  | true =>
    by_cases hes : es = []
    · subst hes
      simp [render, norm, joinSep, splitSep, cleanElems, cleanStep]
    · have hsplit := splitSep_joinSep es hes hsep
      have hfold := foldl_cleanStep_of_good (r := true) es [] (by simpa using h)
      simp [render, norm, splitSep, hsplit, cleanElems, (cleanStep_skip true []).1, hfold]
  | false =>
    by_cases hes : es = []
    · subst hes
      simp [render, norm, splitSep, cleanElems, cleanStep]
    · obtain ⟨c, hc, hne⟩ := head?_joinSep hes helem
      have hsplit := splitSep_joinSep es hes hsep
      have hfold := foldl_cleanStep_of_good (r := false) es [] (by simpa using h)
      simp [render, norm, hes, hc, hne, hsplit, cleanElems, hfold]

theorem cleanStep_name (r : Bool) (kept : List (List Char)) {n : List Char}
    (hn : GoodElem n) (hdd : n ≠ ['.', '.']) : cleanStep r kept n = n :: kept := by
  unfold cleanStep
  rw [if_neg (fun o => o.elim hn.1 hn.2.1), if_neg hdd]

theorem Good.push {r : Bool} {kept : List (List Char)} {n : List Char}
    (hk : Good r kept) (hn : GoodElem n) (hdd : n ≠ ['.', '.']) : Good r (n :: kept) :=
  ⟨hn, fun h => absurd h hdd, hk⟩

theorem norm_append_name (p n : List Char) (hp : p ≠ []) (hn : GoodElem n)
    (hdd : n ≠ ['.', '.']) : norm (p ++ '/' :: n) = ((norm p).1, (norm p).2 ++ [n]) := by
  have hhead : (p ++ '/' :: n).head? = p.head? := by
    cases p with
    | nil => exact absurd rfl hp
    | cons c cs => rfl
  unfold norm cleanElems
  rw [hhead, splitSep_append_sep, splitSep_of_noSep n hn.2.2, List.foldl_append]
  simp [cleanStep_name _ _ hn hdd]

theorem norm_name (n : List Char) (hn : GoodElem n) (hdd : n ≠ ['.', '.']) :
    norm n = (false, [n]) := by
  obtain ⟨c, cs, hx, hc⟩ := head?_of_goodElem hn
  unfold norm cleanElems
  rw [splitSep_of_noSep n hn.2.2]
  simp [cleanStep_name _ _ hn hdd]
  subst hx
  simpa using hc

theorem validName_chars {s : String} (h : validName s = true) :
    GoodElem s.toList ∧ s.toList ≠ ['.', '.'] := by
  simp only [validName, Bool.and_eq_true, decide_eq_true_eq] at h
  obtain ⟨⟨⟨h1, h2⟩, h3⟩, h4⟩ := h
  refine ⟨⟨?_, ?_, h2⟩, ?_⟩
  · intro e; exact h1 (String.ext e)
  · intro e; exact h3 (String.ext e)
  · intro e; exact h4 (String.ext e)

theorem Clean_toList (p : String) : (Clean p).toList = render (norm p.toList) := rfl

theorem norm_Join (p name : String) (hv : validName name = true) :
    norm (Join p name).toList = ((norm p.toList).1, (norm p.toList).2 ++ [name.toList]) := by
  obtain ⟨hg, hdd⟩ := validName_chars hv
  have hne : name ≠ "" := fun e => hg.1 (by simp [e])
  unfold Join
  by_cases hp : p = ""
  · subst hp
    rw [if_pos rfl, if_neg hne, Clean_toList, norm_render _ (norm_good _), norm_name _ hg hdd]
    rfl
  · have hp' : p.toList ≠ [] := fun e => hp (String.ext e)
    rw [if_neg hp, Clean_toList, norm_render _ (norm_good _)]
    have : (p ++ "/" ++ name).toList = p.toList ++ '/' :: name.toList := by
      simp [String.toList, String.data_append]
    rw [this, norm_append_name _ _ hp' hg hdd]

/-- The path `WalkDir` builds for the entry reached from `folder` through the
names `rel`. -/
theorem norm_walked (rel : List String) : ∀ folder : String,
    (∀ n ∈ rel, validName n = true) →
    norm (rel.foldl Join folder).toList =
      ((norm folder.toList).1, (norm folder.toList).2 ++ rel.map String.toList) := by
  induction rel with
  | nil => intro folder _; simp
  | cons n rel ih =>
    intro folder hv
    rw [List.foldl_cons, ih _ (fun x hx => hv x (by simp [hx])), norm_Join _ _ (hv n (by simp))]
    simp

theorem Good.pushAll {r : Bool} (names : List String) :
    ∀ kept : List (List Char), Good r kept → (∀ n ∈ names, validName n = true) →
    Good r ((names.map String.toList).reverse ++ kept) := by
  induction names with
  | nil => intro kept hk _; simpa using hk
  | cons n names ih =>
    intro kept hk hv
    obtain ⟨hg, hdd⟩ := validName_chars (hv n (by simp))
    have := ih (n.toList :: kept) (Good.push hk hg hdd) (fun x hx => hv x (by simp [hx]))
    simpa [List.reverse_cons, List.append_assoc] using this

theorem relElems_append (es names : List (List Char)) :
    relElems es (es ++ names) = some names := by
  induction es with
  | nil => rfl
  | cons e es ih => simp [relElems, ih]

/-- `filepath.Rel` succeeds on the paths built by `WalkDir` below `folder`, and
gives the names leading to the entry, joined by `/`. -/
theorem Rel_walked (folder : String) (rel : List String) (hne : rel ≠ [])
    (hv : ∀ n ∈ rel, validName n = true) :
    Rel folder (rel.foldl Join folder) = .ok (relName rel) := by
  have hw := norm_walked rel folder hv
  have hgb := norm_good folder.toList
  have hgt : Good (norm folder.toList).1
      ((norm folder.toList).2 ++ rel.map String.toList).reverse := by
    simpa using Good.pushAll rel _ hgb hv
  unfold Rel
  simp only [hw]
  have hneq : render ((norm folder.toList).1, (norm folder.toList).2 ++ rel.map String.toList) ≠
      render (norm folder.toList) := by
    intro e
    have e2 := congrArg norm e
    rw [norm_render ((norm folder.toList).1, (norm folder.toList).2 ++ rel.map String.toList) hgt,
      norm_render (norm folder.toList) hgb] at e2
    have e3 := congrArg Prod.snd e2
    simp only at e3
    have e4 := congrArg List.length e3
    simp only [List.length_append, List.length_map] at e4
    have : rel.length ≠ 0 := fun h => hne (List.length_eq_zero.1 h)
    omega
  rw [if_neg hneq]
  have hnil : ¬ ((norm folder.toList).1 = false ∧
      (norm folder.toList).2 ++ rel.map String.toList = []) := by
    intro h
    have := congrArg List.length h.2
    simp only [List.length_append, List.length_map, List.length_nil] at this
    have : rel.length ≠ 0 := fun h0 => hne (List.length_eq_zero.1 h0)
    omega
  rw [if_neg hnil, relElems_append]
  simp [relName]

/-! ## The scan as a sequence of extractions -/

theorem runVisits_append (H : Hashes) (vs vs2 : List Visit) : ∀ (w : Sink) (n : Nat),
    runVisits H w n (vs ++ vs2) =
      match runVisits H w n vs with
      | (w1, n1, none) => runVisits H w1 n1 vs2
      | (w1, n1, some e) => (w1, n1, some e) := by
  induction vs with
  | nil => intro w n; simp [runVisits]
  | cons v vs ih =>
    intro w n
    cases v with
    | fail e => simp [runVisits]
    | deb path rel file =>
      simp only [List.cons_append, runVisits]
      rcases hr : ExtractStanza H file path ("./" ++ relName rel) w with ⟨w1, _ | e⟩
      · exact ih w1 (n + 1)
      · simp

mutual
/-- The walk of `ScanPackages` below `folder` carries out the visits of the
node, in order. -/
theorem walkDir_scan (H : Hashes) (folder : String) (maxdepth : Int) :
    (node : Node) → (rel : List String) → (w : Sink) → (n : Nat) →
    (∀ x ∈ rel, validName x = true) → node.wellNamed = true →
    (node.IsDir = false → rel ≠ []) →
    walkDir (scanFn H folder maxdepth) (rel.foldl Join folder) node (w, n) =
      walkOf (runVisits H w n (node.visits maxdepth (rel.foldl Join folder) rel))
  | .file f, rel, w, n, hv, _, hrel => by
    have hr := Rel_walked folder rel (hrel rfl) hv
    by_cases hext : Ext (rel.foldl Join folder) = ".deb"
    · simp only [walkDir, scanFn, hext, if_true, hr, Node.visits, runVisits]
      rcases ExtractStanza H f (rel.foldl Join folder) ("./" ++ relName rel) w with ⟨w1, _ | e⟩
      · simp [walkOf, runVisits]
      · simp [walkOf]
    · simp [walkDir, scanFn, hext, Node.visits, runVisits, walkOf]
  | .dir readErr entries, rel, w, n, hv, hwn, _ => by
    by_cases hd : CountSep (rel.foldl Join folder) > maxdepth
    · simp [walkDir, scanFn, hd, Node.visits, runVisits, walkOf]
    · cases readErr with
      | some e => simp [walkDir, scanFn, hd, Node.visits, runVisits, walkOf]
      | none =>
        have := walkEntries_scan H folder maxdepth entries rel w n hv
          (by simpa [Node.wellNamed] using hwn)
        simp [walkDir, scanFn, hd, Node.visits, this]
/-- The loop over the entries of a directory carries out their visits. -/
theorem walkEntries_scan (H : Hashes) (folder : String) (maxdepth : Int) :
    (entries : Entries) → (rel : List String) → (w : Sink) → (n : Nat) →
    (∀ x ∈ rel, validName x = true) → entries.wellNamed = true →
    walkEntries (scanFn H folder maxdepth) (rel.foldl Join folder) entries (w, n) =
      walkOf (runVisits H w n (entries.visits maxdepth (rel.foldl Join folder) rel))
  | .nil, rel, w, n, _, _ => by
    simp [walkEntries, Entries.visits, runVisits, walkOf]
  | .cons name node rest, rel, w, n, hv, hwn => by
    simp only [Entries.wellNamed, Bool.and_eq_true] at hwn
    obtain ⟨⟨hname, hnode⟩, hrest⟩ := hwn
    have hv2 : ∀ x ∈ rel ++ [name], validName x = true := by
      intro x hx
      rcases List.mem_append.1 hx with h | h
      · exact hv x h
      · rw [List.mem_singleton.1 h]; exact hname
    have h1 := walkDir_scan H folder maxdepth node (rel ++ [name]) w n hv2 hnode (by simp)
    rw [List.foldl_append] at h1
    simp only [List.foldl_cons, List.foldl_nil] at h1
    simp only [walkEntries, Entries.visits, h1, runVisits_append]
    rcases runVisits H w n
      (node.visits maxdepth (Join (rel.foldl Join folder) name) (rel ++ [name]))
      with ⟨w1, n1, _ | e⟩
    · simp only [walkOf]
      exact walkEntries_scan H folder maxdepth rest rel w1 n1 hv hrest
    · simp [walkOf]
end

/-- On a well-named tree whose root is a directory, `ScanPackages` is the
extraction of the visited archives in traversal order, up to the first error. -/
theorem ScanPackages_eq_runVisits (H : Hashes) (folder : String) (readErr : Option ExtError)
    (entries : Entries) (maxdepth : Int) (w : Sink)
    (hwn : entries.wellNamed = true) :
    ScanPackages H folder (.ok (.dir readErr entries)) maxdepth w =
      runVisits H w 0 ((Node.dir readErr entries).visits maxdepth folder []) := by
  have h := walkDir_scan H folder maxdepth (.dir readErr entries) [] w 0 (by simp)
    (by simpa [Node.wellNamed] using hwn) (by simp [Node.IsDir])
  simp only [List.foldl_nil] at h
  unfold ScanPackages WalkDir
  simp only [h]
  rcases runVisits H w 0 ((Node.dir readErr entries).visits maxdepth folder [])
    with ⟨w1, n1, _ | e⟩ <;> simp [walkOf]


/-! ## Outcomes of a scan -/

theorem afterDecode_reliable (H : Hashes) (a : Archive) (tr : TarStream) (name : String)
    (w : Sink) (hw : w.fault = none) :
    afterDecode H a tr name w =
      (⟨w.written ++ (afterDecode H a tr name ⟨[], none⟩).1.written, none⟩,
        (afterDecode H a tr name ⟨[], none⟩).2) := by
  obtain ⟨ws, wf⟩ := w
  simp only at hw
  subst hw
  unfold afterDecode ioCopy writeFields
  cases tr.controlEntry with
  | some en =>
    simp only [Sink.write]
    cases en.readErr with
    | some x => simp
    | none => cases a.drainErr <;> simp
  | none =>
    simp only
    cases tr.stop with
    | some x => simp
    | none => cases a.drainErr <;> simp [Sink.write]

/-- On a sink that accepts every write, what `ExtractStanza` writes and returns
does not depend on what the sink already holds. -/
theorem ExtractStanza_reliable (H : Hashes) (file : Except ExtError Archive)
    (debfile filepath : String) (w : Sink) (hw : w.fault = none) :
    ExtractStanza H file debfile filepath w =
      (⟨w.written ++ (ExtractStanza H file debfile filepath ⟨[], none⟩).1.written, none⟩,
        (ExtractStanza H file debfile filepath ⟨[], none⟩).2) := by
  have hself : w = ⟨w.written ++ [], none⟩ := by
    obtain ⟨ws, wf⟩ := w
    simp only at hw
    subst hw
    simp
  cases file with
  | error e => simpa [ExtractStanza] using hself
  | ok a =>
    rw [ExtractStanza_ok_eq, ExtractStanza_ok_eq]
    cases a.container with
    | none => cases a.stop <;> simpa using hself
    | some m =>
      simp only
      cases selectCodec m.name with
      | none => simpa using hself
      | some c =>
        simp only
        cases (m.decode c).result with
        | error e => simpa using hself
        | ok tr => exact afterDecode_reliable H a tr _ w hw

theorem display_ne_empty (x : String) : "./" ++ x ≠ "" := by
  intro h
  have := congrArg String.length h
  simp only [String.length_append] at this
  have h2 : "./".length = 2 := by decide
  have h0 : "".length = 0 := by decide
  omega

/-- A successful extraction of a visited archive adds its Stanza to the sink. -/
theorem ExtractStanza_visit_ok (H : Hashes) (path : String) (rel : List String)
    (file : Except ExtError Archive) (w w' : Sink)
    (h : ExtractStanza H file path ("./" ++ relName rel) w = (w', none)) :
    w'.written = w.written ++ (Visit.deb path rel file).stanza H := by
  cases file with
  | error e => simp [ExtractStanza] at h
  | ok a =>
    have := ExtractStanza_success H a path ("./" ++ relName rel) w w' h
    rw [if_neg (display_ne_empty _), List.append_assoc] at this
    rw [this]
    rfl

/-- A visit that ends without error is an archive, and what it adds to the sink
is the Stanza of that archive. -/
theorem Visit.result_ok (H : Hashes) (v : Visit) (h : (v.result H).2 = none) :
    (v.result H).1 = v.stanza H := by
  cases v with
  | fail e => simp [Visit.result] at h
  | deb path rel file =>
    simp only [Visit.result] at h ⊢
    have := ExtractStanza_visit_ok H path rel file ⟨[], none⟩ _ (Prod.ext rfl h)
    simpa using this

theorem runVisits_step (H : Hashes) (v : Visit) (vs : List Visit) (w : Sink) (n : Nat)
    (hw : w.fault = none) :
    runVisits H w n (v :: vs) =
      match (v.result H).2 with
      | none => runVisits H ⟨w.written ++ (v.result H).1, none⟩ (n + 1) vs
      | some e => (⟨w.written ++ (v.result H).1, none⟩, n, some e) := by
  cases v with
  | fail e =>
    obtain ⟨ws, wf⟩ := w
    simp only at hw
    subst hw
    simp [runVisits, Visit.result]
  | deb path rel file =>
    simp only [runVisits, Visit.result]
    rw [ExtractStanza_reliable H file path _ w hw]
    cases (ExtractStanza H file path ("./" ++ relName rel) ⟨[], none⟩).2 <;> simp

theorem runVisits_all_ok (H : Hashes) (vs : List Visit) : ∀ (w : Sink) (n : Nat),
    w.fault = none → (∀ v ∈ vs, (v.result H).2 = none) →
    runVisits H w n vs =
      (⟨w.written ++ vs.flatMap (Visit.stanza H), none⟩, n + vs.length, none) := by
  induction vs with
  | nil =>
    intro w n hw _
    obtain ⟨ws, wf⟩ := w
    simp only at hw
    subst hw
    simp [runVisits]
  | cons v vs ih =>
    intro w n hw h
    have hv := h v (by simp)
    rw [runVisits_step H v vs w n hw, hv]
    simp only
    rw [ih _ _ rfl (fun x hx => h x (by simp [hx])), Visit.result_ok H v hv]
    simp [List.flatMap_cons, List.append_assoc, Nat.add_assoc, Nat.add_comm 1]

/-- On any sink: when the extraction of the visits one after the other ends
without error, the sink has gained their Stanzas and the count their number. -/
theorem runVisits_ok_written (H : Hashes) (vs : List Visit) : ∀ (w w' : Sink) (n n' : Nat),
    runVisits H w n vs = (w', n', none) →
    w'.written = w.written ++ vs.flatMap (Visit.stanza H) ∧ n' = n + vs.length := by
  induction vs with
  | nil =>
    intro w w' n n' h
    simp only [runVisits, Prod.mk.injEq, and_true] at h
    obtain ⟨h1, h2⟩ := h
    subst h1 h2
    simp
  | cons v vs ih =>
    intro w w' n n' h
    cases v with
    | fail e => simp [runVisits] at h
    | deb path rel file =>
      simp only [runVisits] at h
      rcases hr : ExtractStanza H file path ("./" ++ relName rel) w with ⟨w1, _ | e⟩
      · rw [hr] at h
        simp only at h
        obtain ⟨h1, h2⟩ := ih _ _ _ _ h
        have h3 := ExtractStanza_visit_ok H path rel file w w1 hr
        refine ⟨?_, ?_⟩
        · rw [h1, h3, List.flatMap_cons, List.append_assoc]
        · rw [h2, List.length_cons]; omega
      · rw [hr] at h
        simp at h

/-- What a failing extraction has left in the sink: nothing, or a part, from
its start and never all, of the Record followed by the field lines. -/
theorem ExtractStanza_failure_written (H : Hashes) (file : Except ExtError Archive)
    (debfile filepath : String) (w w' : Sink) (e : Error)
    (h : ExtractStanza H file debfile filepath w = (w', some e)) :
    ∃ out : List Byte, w'.written = w.written ++ out ∧
      (out = [] ∨ ∃ a, file = .ok a ∧
        out <+: stanza H a (if filepath = "" then debfile else filepath) ∧
        out.length < (stanza H a (if filepath = "" then debfile else filepath)).length) := by
  have hnil : ∀ {x : Sink × Option Error}, x = (w', some e) → x.1 = w →
      ∃ out : List Byte, w'.written = w.written ++ out ∧
      (out = [] ∨ ∃ a, file = .ok a ∧
        out <+: stanza H a (if filepath = "" then debfile else filepath) ∧
        out.length < (stanza H a (if filepath = "" then debfile else filepath)).length) := by
    intro x hx hx1
    refine ⟨[], ?_, Or.inl rfl⟩
    rw [hx] at hx1
    simp only at hx1
    rw [hx1]
    simp
  cases file with
  | error x => exact hnil h rfl
  | ok a =>
    rw [ExtractStanza_ok_eq] at h
    cases hc : a.container with
    | none =>
      rw [hc] at h
      cases hs : a.stop <;> rw [hs] at h <;> exact hnil h rfl
    | some m =>
      rw [hc] at h
      simp only at h
      cases hsel : selectCodec m.name with
      | none => rw [hsel] at h; exact hnil h rfl
      | some c =>
        rw [hsel] at h
        simp only at h
        cases hd : (m.decode c).result with
        | error x => rw [hd] at h; exact hnil h rfl
        | ok tr =>
          rw [hd] at h
          simp only at h
          obtain ⟨out, hw, hp, -, herr, -⟩ :=
            afterDecode_spec H a tr (if filepath = "" then debfile else filepath) w
          rw [h] at hw herr
          simp only at hw herr
          refine ⟨out, hw, Or.inr ⟨a, rfl, ?_, ?_⟩⟩
          · simpa [stanza, Archive.record_eq hc hsel hd] using hp
          · simpa [stanza, Archive.record_eq hc hsel hd] using herr (by simp)

/-! ## Claims on ScanPackages -/

/-- C3 (amended): on a directory tree and depth bound for which the traversal
itself reports no error and every visited archive extracts successfully,
`ScanPackages`, writing to a sink that accepts the writes, returns a nil
error, a count equal to the number of non-directory entries with extension
`.deb` it visited, and adds to the sink exactly the Stanzas of those archives,
in traversal order, each with Filename `./` followed by the path of the
archive relative to the root. -/
theorem ScanPackages_success (H : Hashes) (folder : String) (readErr : Option ExtError)
    (entries : Entries) (maxdepth : Int) (w : Sink)
    (hwn : entries.wellNamed = true) (hw : w.fault = none)
    (htrav : ∀ v ∈ (Node.dir readErr entries).visits maxdepth folder [], v.isFail = false)
    (hok : ∀ v ∈ (Node.dir readErr entries).visits maxdepth folder [],
      v.isFail = false → (v.result H).2 = none) :
    ScanPackages H folder (.ok (.dir readErr entries)) maxdepth w =
      (⟨w.written ++
          ((Node.dir readErr entries).visits maxdepth folder []).flatMap (Visit.stanza H),
          none⟩,
        ((Node.dir readErr entries).visits maxdepth folder []).countP (fun v => !v.isFail),
        none) := by
  rw [ScanPackages_eq_runVisits H folder readErr entries maxdepth w hwn,
    runVisits_all_ok H _ w 0 hw (fun v hv => hok v hv (htrav v hv))]
  have hc : ((Node.dir readErr entries).visits maxdepth folder []).countP (fun v => !v.isFail) =
      ((Node.dir readErr entries).visits maxdepth folder []).length := by
    rw [List.countP_eq_length]
    intro v hv
    simp [htrav v hv]
  rw [hc, Nat.zero_add]

/-- On the tree of the tests, scanned from `.` with depth bound 2, the count is
2 and the sink holds the two Stanzas in order. -/
theorem ScanPackages_success_witness :
    ScanPackages toyHashes "." (.ok testTree) 2 ⟨[], none⟩ =
      (⟨stanza toyHashes sampleDeb "./examples/test-pkg1_1.0.0_all.deb" ++
          stanza toyHashes noRecordDeb "./examples/test-pkg2_1.0.0_amd64.deb", none⟩, 2,
        none) :=
  (ScanPackages_success toyHashes "." none _ 2 ⟨[], none⟩ (by decide) rfl (by decide)
    (by decide)).trans (by decide)

/-- C3 as stated fails: in `lockedTree` the only visited archive extracts
successfully, yet `ScanPackages` returns the error of the directory that
cannot be listed. -/
theorem ScanPackages_success_counterexample :
    (∀ v ∈ lockedTree.visits 1 "." [], v.isFail = false → (v.result toyHashes).2 = none) ∧
    ScanPackages toyHashes "." (.ok lockedTree) 1 ⟨[], none⟩ =
      (⟨stanza toyHashes sampleDeb "./a.deb", none⟩, 1,
        some (.ext ⟨"permission denied"⟩)) := by
  constructor <;> decide

/-- C4 (code at the failing input): scanning `nestedTree` from `.` with depth
bound 1 extracts and counts the archive inside the subdirectory `sub`. -/
theorem ScanPackages_depth_one_descends :
    ScanPackages toyHashes "." (.ok nestedTree) 1 ⟨[], none⟩ =
      (⟨stanza toyHashes sampleDeb "./sub/b.deb", none⟩, 1, none) := by
  decide

/-- C5 (code at the failing input): scanning `flatTree` from `/srv/repo/debs`
with depth bound 1 skips the root itself, whose path holds three separators:
the archive directly in the root is not extracted and the count is 0. -/
theorem ScanPackages_absolute_root_skipped :
    CountSep "/srv/repo/debs" = 3 ∧
    ScanPackages toyHashes "/srv/repo/debs" (.ok flatTree) 1 ⟨[], none⟩ =
      (⟨[], none⟩, 0, none) := by
  constructor <;> decide

/-- C6 (amended): when the archives visited before one have been extracted
(leaving the sink `w1`) and the extraction of that one fails with `e` (leaving
the sink `w2`), `ScanPackages` returns that same error `e` and a count equal to
the number of archives before the failing one, whatever entries follow it in
the traversal; and the sink holds the Stanzas of the archives before it
followed by what the failing extraction had already written: nothing, or a
part, from its start and never all, of the Record of the failing archive
followed by its `Filename:`, `Size:` and checksum lines. -/
theorem ScanPackages_first_failure (H : Hashes) (folder : String) (readErr : Option ExtError)
    (entries : Entries) (maxdepth : Int) (w w1 w2 : Sink) (n1 : Nat) (pre post : List Visit)
    (path : String) (rel : List String) (file : Except ExtError Archive) (e : Error)
    (hwn : entries.wellNamed = true)
    (hvs : (Node.dir readErr entries).visits maxdepth folder [] =
      pre ++ Visit.deb path rel file :: post)
    (hpre : runVisits H w 0 pre = (w1, n1, none))
    (hfail : ExtractStanza H file path ("./" ++ relName rel) w1 = (w2, some e)) :
    ScanPackages H folder (.ok (.dir readErr entries)) maxdepth w = (w2, pre.length, some e) ∧
    w1.written = w.written ++ pre.flatMap (Visit.stanza H) ∧
    ∃ out : List Byte,
      w2.written = w.written ++ pre.flatMap (Visit.stanza H) ++ out ∧
      (out = [] ∨ ∃ a, file = .ok a ∧
        out <+: stanza H a ("./" ++ relName rel) ∧
        out.length < (stanza H a ("./" ++ relName rel)).length) := by
  obtain ⟨hw1, hn1⟩ := runVisits_ok_written H pre w w1 0 n1 hpre
  obtain ⟨out, hout, hcases⟩ :=
    ExtractStanza_failure_written H file path ("./" ++ relName rel) w1 w2 e hfail
  rw [if_neg (display_ne_empty _)] at hcases
  refine ⟨?_, hw1, out, by rw [hout, hw1], hcases⟩
  rw [ScanPackages_eq_runVisits H folder readErr entries maxdepth w hwn, hvs,
    runVisits_append, hpre]
  simp only [runVisits, hfail]
  rw [hn1, Nat.zero_add]

/-- In `zstdTree` the second of three archives is in an unsupported format: the
scan returns its error, count 1, the sink holds the Stanza of the first, and
the third is not extracted. -/
theorem ScanPackages_first_failure_witness :
    ScanPackages toyHashes "." (.ok zstdTree) 1 ⟨[], none⟩ =
      (⟨stanza toyHashes sampleDeb "./a.deb", none⟩, 1,
        some (.errorf "unsupported control archive format: control.tar.zstd")) :=
  (ScanPackages_first_failure toyHashes "." none zstdEntries 1 ⟨[], none⟩
    ⟨stanza toyHashes sampleDeb "./a.deb", none⟩
    ⟨stanza toyHashes sampleDeb "./a.deb", none⟩ 1
    [.deb "a.deb" ["a.deb"] (.ok sampleDeb)] [.deb "zz.deb" ["zz.deb"] (.ok sampleDeb)]
    "z.deb" ["z.deb"] (.ok zstdDeb)
    (.errorf "unsupported control archive format: control.tar.zstd")
    (by decide) rfl (by decide) (by decide)).1

/-- C6 as stated fails: in `tornTree` the extraction of `b.deb` fails with a
read error inside `./control`; the scan returns that error with count 1, and
the sink holds the Stanza of `a.deb` followed by the two bytes of the Record of
`b.deb` already copied, not the Stanza of `a.deb` alone. -/
theorem ScanPackages_first_failure_counterexample :
    (ExtractStanza toyHashes (.ok tornDeb) "b.deb" "./b.deb" ⟨[], none⟩).2 =
      some (.ext ⟨"unexpected EOF"⟩) ∧
    ScanPackages toyHashes "." (.ok tornTree) 1 ⟨[], none⟩ =
      (⟨stanza toyHashes sampleDeb "./a.deb" ++ bytesOf "P\n", none⟩, 1,
        some (.ext ⟨"unexpected EOF"⟩)) ∧
    (ScanPackages toyHashes "." (.ok tornTree) 1 ⟨[], none⟩).1.written ≠
      stanza toyHashes sampleDeb "./a.deb" := by
  refine ⟨by decide, by decide, by decide⟩

/-- Failures after the Record is complete: when the final read to the end of
the file fails, the whole Record is in the sink and the error is returned; and
when the sink has room for the Record and three more bytes only, the Record and
three bytes of the `Filename:` line are in the sink with the error of the
sink. -/
theorem ExtractStanza_late_failures :
    ExtractStanza toyHashes (.ok unreadableTailDeb) "x.deb" "./x.deb" ⟨[], none⟩ =
      (⟨bytesOf "P\n", none⟩, some (.ext ⟨"input/output error"⟩)) ∧
    ExtractStanza toyHashes (.ok sampleDeb) "x.deb" "./x.deb" ⟨[], some (5, ⟨"disk full"⟩)⟩ =
      (⟨bytesOf "P\nFil", some (0, ⟨"disk full"⟩)⟩, some (.ext ⟨"disk full"⟩)) := by
  constructor <;> decide

/-! ## Claim on ScanAndWritePackages -/

/-- When the three destinations and both encoders are obtained, everything is
closed on return, each encoder before its file. -/
theorem ScanAndWritePackages_closes_when_opened (H : Hashes) (folder : String)
    (root : Except ExtError Node) (maxdepth : Int) (fault : Option (Nat × ExtError)) :
    (ScanAndWritePackages H ⟨none, none, none, none, fault⟩ folder root maxdepth).log =
      [.opened .f, .opened .gzf, .opened .bzf, .opened .gzw, .opened .bzw,
        .closed .bzw, .closed .gzw, .closed .bzf, .closed .gzf, .closed .f] := by
  simp [ScanAndWritePackages, runDeferred]

/-- C10 (code at the failing input): when `Packages` is created and creating
`Packages.gz` fails, `ScanAndWritePackages` returns that error with the file
`Packages` opened and never closed; and when `bzip2.NewWriter` fails, the
encoder `gzw` is left unclosed. -/
theorem ScanAndWritePackages_leaks_on_early_return :
    (ScanAndWritePackages toyHashes ⟨none, some ⟨"permission denied"⟩, none, none, none⟩ "."
        (.ok flatTree) 1).log = [.opened .f] ∧
    (ScanAndWritePackages toyHashes ⟨none, some ⟨"permission denied"⟩, none, none, none⟩ "."
        (.ok flatTree) 1).err = some (.ext ⟨"permission denied"⟩) ∧
    ¬ allClosed (ScanAndWritePackages toyHashes
        ⟨none, some ⟨"permission denied"⟩, none, none, none⟩ "." (.ok flatTree) 1).log ∧
    ¬ allClosed (ScanAndWritePackages toyHashes ⟨none, none, none, some ⟨"bad level"⟩, none⟩
        "." (.ok flatTree) 1).log := by
  refine ⟨rfl, rfl, ?_, ?_⟩
  · intro h
    have := h .f (by decide)
    revert this
    decide
  · intro h
    have := h .gzw (by decide)
    revert this
    decide

end Debserve
